import Mathlib

/-!
Verification of the `syntree_layout` embedding engine (`src/internal/embedder.rs`)
and the `Layouter` wrapper (`src/layouter.rs`).

The source tree type (the external `syntree` crate) is modelled as an ordered
rooted forest: a `syntree::Tree` holds a list of top-level children, each an
ordered tree of opaque values.  The two traversals the engine uses are the
pre-order walk with depths (`tree.walk().with_depths()`) and the enter/exit
event walk (`tree.walk_events()`); per the spec's tree contract, every node
produces one enter and one exit event, exit events firing children-before-parent.

The working table `EmbeddingHelperData` (from `src/internal/node.rs`, which is
not part of the sources here) is modelled from the spec as a dense list of
records indexed by `ord`, the pre-order visitation counter; `get_by_ord` is
list lookup.  Since pre-order visits a parent strictly before its children,
the parent lookup by node id in `create_from_node` always finds the parent's
record, and its `ord` is passed down directly in the model.
-/

/-- Modelled from the spec: the working layout record of `src/internal/node.rs`
(`InternalNode`), one per source node.  Extents are nonnegative integers
(`Nat`); `x_center` is a possibly negative integer (the spec's concrete
scenario produces negative centers), with truncating division on the
nonnegative extents. -/
structure InternalNode where
  y_order : Nat
  x_center : Int
  x_extent : Nat
  x_extent_of_children : Nat
  x_extent_children : Nat
  text : String
  is_emphasized : Bool
  parent : Option Nat
  ord : Nat
deriving Repr, DecidableEq

/-- Modelled from the spec: the public result record (depth, horizontal center,
text, emphasis flag and identity reference), one per working record. -/
structure EmbeddedNode where
  y_order : Nat
  x_center : Int
  text : String
  is_emphasized : Bool
  ord : Nat
deriving Repr, DecidableEq

mutual
/-- An ordered rooted tree of opaque values: one node of the external source tree. -/
inductive RTree (α : Type) : Type where
  | node : α → Forest α → RTree α
/-- An ordered list of trees: the children of a node, or the top-level
children of a `syntree::Tree`. -/
inductive Forest (α : Type) : Type where
  | nil : Forest α
  | cons : RTree α → Forest α → Forest α
end

mutual
/-- Number of nodes of a tree (the number of records its pre-order walk inserts). -/
def RTree.size {α : Type} : RTree α → Nat
  | .node _ f => 1 + f.size
/-- Number of nodes of a forest. -/
def Forest.size {α : Type} : Forest α → Nat
  | .nil => 0
  | .cons t f => t.size + f.size
end

/-- `tree.children().count()`: the number of top-level children. -/
def Forest.rootCount {α : Type} : Forest α → Nat
  | .nil => 0
  | .cons _ f => f.rootCount + 1

/-- The value carried by a tree's root node. -/
def RTree.value {α : Type} : RTree α → α
  | .node v _ => v

/-- The children of a tree's root node. -/
def RTree.children {α : Type} : RTree α → Forest α
  | .node _ f => f

mutual
/-- Pass 1 (`create_initial_embedding_data` / `create_from_node`), tree part:
the records inserted by the pre-order depth-first walk for the subtree rooted
at a node visited with counter `ord`, at depth `depth`, whose parent record
(if any) has ordinal `parent`.  Each record gets `y_order = depth`,
`x_extent = len(text)+1`, and `x_extent_of_children = x_extent_children =
x_extent` as placeholders; `x_center` is initialized to 0. -/
def build1 {α : Type} (s : α → String) (em : α → Bool) :
    RTree α → Nat → Nat → Option Nat → List InternalNode
  | .node v f, ord, depth, parent =>
    { y_order := depth
      x_center := 0
      x_extent := (s v).length + 1
      x_extent_of_children := (s v).length + 1
      x_extent_children := (s v).length + 1
      text := s v
      is_emphasized := em v
      parent := parent
      ord := ord } :: build1F s em f (ord + 1) (depth + 1) (some ord)
/-- Pass 1, forest part: pre-order records of a list of sibling subtrees,
the first sibling being visited with counter `ord`. -/
def build1F {α : Type} (s : α → String) (em : α → Bool) :
    Forest α → Nat → Nat → Option Nat → List InternalNode
  | .nil, _, _, _ => []
  | .cons t f, ord, depth, parent =>
    build1 s em t ord depth parent ++ build1F s em f (ord + t.size) depth parent
end

/-- `create_initial_embedding_data`: reject trees with more than one top-level
child, then populate the working table by the pre-order walk. -/
def create_initial_embedding_data {α : Type} (f : Forest α)
    (s : α → String) (em : α → Bool) : Except String (List InternalNode) :=
  if 1 < f.rootCount then Except.error ("Currently we support only one root")
  else Except.ok (build1F s em f 0 0 none)

/-- Ordinals of the direct children of a node whose first child is visited
with counter `ord` (pre-order: each next sibling starts after the previous
sibling's whole subtree). -/
def childOrds {α : Type} : Forest α → Nat → List Nat
  | .nil, _ => []
  | .cons t f, ord => ord :: childOrds f (ord + t.size)

/-- The fold of `apply_children_x_extents`'s `Up` handler over the direct
children: sum of `x_extent_children` over the children found in the table. -/
def childrenExtentSum (items : List InternalNode) : List Nat → Nat
  | [] => 0
  | c :: rest =>
    (match items[c]? with
     | some child => child.x_extent_children
     | none => 0) + childrenExtentSum items rest

mutual
/-- Pass 2 (`apply_children_x_extents`), tree part: the enter/exit event walk
restricted to the subtree rooted at ordinal `ord`.  Children's events fire
first; then the node's exit (`Event::Up`) computes `x_extent_of_children` as
the sum of the children's `x_extent_children` and sets `x_extent_children`
to `max x_extent x_extent_of_children`. -/
def applyUpEvents {α : Type} : RTree α → Nat → List InternalNode → List InternalNode
  | .node _ f, ord, items0 =>
    let items1 := applyUpEventsF f (ord + 1) items0
    let s := childrenExtentSum items1 (childOrds f (ord + 1))
    match items1[ord]? with
    | some it =>
      items1.set ord { it with x_extent_of_children := s, x_extent_children := max it.x_extent s }
    | none => items1
/-- Pass 2, forest part: events of a list of sibling subtrees, in order. -/
def applyUpEventsF {α : Type} : Forest α → Nat → List InternalNode → List InternalNode
  | .nil, _, items => items
  | .cons t f, ord, items => applyUpEventsF f (ord + t.size) (applyUpEvents t ord items)
end

/-- `apply_children_x_extents`: run the event walk over the whole tree. -/
def apply_children_x_extents {α : Type} (f : Forest α) (items : List InternalNode) :
    List InternalNode :=
  applyUpEventsF f 0 items

mutual
/-- Reference value: the final `x_extent_children` of a subtree after pass 2
(`max` of the node's own extent and the sum of the children's values). -/
def RTree.xec {α : Type} (s : α → String) : RTree α → Nat
  | .node v f => max ((s v).length + 1) (xecF s f)
/-- Reference value: the sum of final `x_extent_children` over a forest. -/
def xecF {α : Type} (s : α → String) : Forest α → Nat
  | .nil => 0
  | .cons t f => t.xec s + xecF s f
end

mutual
/-- Reference table after pass 2, tree part: the pre-order records with their
final widths (`x_extent_of_children` = sum over children, `x_extent_children`
= max of own extent and that sum). -/
def build2 {α : Type} (s : α → String) (em : α → Bool) :
    RTree α → Nat → Nat → Option Nat → List InternalNode
  | .node v f, ord, depth, parent =>
    { y_order := depth
      x_center := 0
      x_extent := (s v).length + 1
      x_extent_of_children := xecF s f
      x_extent_children := max ((s v).length + 1) (xecF s f)
      text := s v
      is_emphasized := em v
      parent := parent
      ord := ord } :: build2F s em f (ord + 1) (depth + 1) (some ord)
/-- Reference table after pass 2, forest part. -/
def build2F {α : Type} (s : α → String) (em : α → Bool) :
    Forest α → Nat → Nat → Option Nat → List InternalNode
  | .nil, _, _, _ => []
  | .cons t f, ord, depth, parent =>
    build2 s em t ord depth parent ++ build2F s em f (ord + t.size) depth parent
end

/-- Pass 3 helper (`x_center_layer`): the ordinals of the records of a given
layer, in table order (the code folds `items.iter().enumerate()`, pushing the
index of every record whose `y_order` equals the layer). -/
def nodeIdsInLayerAux (layer : Nat) : List InternalNode → Nat → List Nat
  | [], _ => []
  | it :: rest, i =>
    if it.y_order = layer then i :: nodeIdsInLayerAux layer rest (i + 1)
    else nodeIdsInLayerAux layer rest (i + 1)

/-- `node_ids_in_layer` of `x_center_layer`. -/
def nodeIdsInLayer (items : List InternalNode) (layer : Nat) : List Nat :=
  nodeIdsInLayerAux layer items 0

/-- `parents_in_layer` of `x_center_layer`: the parent of every record of the
layer, failing on a missing record (fail-fast `collect::<Result<_>>`). -/
def parentsInLayer (items : List InternalNode) : List Nat → Except String (List (Option Nat))
  | [] => Except.ok []
  | ord :: rest =>
    match items[ord]? with
    | some it =>
      match parentsInLayer items rest with
      | Except.ok ps => Except.ok (it.parent :: ps)
      | Except.error msg => Except.error msg
    | none => Except.error ("Expecting existing node")

/-- `nodes_in_layer_per_parent` of `x_center_layer`: the ordinals of the layer
whose record's parent equals `p` (records not found are skipped). -/
def nodesInLayerPerParent (items : List InternalNode) : List Nat → Option Nat → List Nat
  | [], _ => []
  | ord :: rest, p =>
    match items[ord]? with
    | some node =>
      if node.parent = p then ord :: nodesInLayerPerParent items rest p
      else nodesInLayerPerParent items rest p
    | none => nodesInLayerPerParent items rest p

/-- The initial `moving_x_center` of a parent group: `0` for the root layer
(`parent = None`), otherwise `parent.x_center - parent.x_extent_of_children / 2`
(truncating division), failing when the parent record is missing. -/
def startCursor (items : List InternalNode) : Option Nat → Except String Int
  | some parentOrd =>
    match items[parentOrd]? with
    | some pi => Except.ok (pi.x_center - ((pi.x_extent_of_children / 2 : Nat) : Int))
    | none => Except.error ("Some item expected here!")
  | none => Except.ok 0

/-- The placement loop of one parent group: for each ordinal in order, set
`x_center = moving_x_center + x_extent_children / 2` and advance the cursor
by `x_extent_children` (ordinals without a record are skipped, not advancing). -/
def placeGroup : List InternalNode → List Nat → Int → List InternalNode
  | items, [], _ => items
  | items, ord :: rest, c =>
    match items[ord]? with
    | some it =>
      placeGroup
        (items.set ord { it with x_center := c + ((it.x_extent_children / 2 : Nat) : Int) })
        rest (c + (it.x_extent_children : Int))
    | none => placeGroup items rest c

/-- The `for p in parents_in_layer` loop of `x_center_layer`: for every entry
of the parents list (duplicates included), recompute the parent's group from
the current table, compute the start cursor, and place the group. -/
def placeParents (ords : List Nat) : List (Option Nat) → List InternalNode → Except String (List InternalNode)
  | [], items => Except.ok items
  | p :: ps, items =>
    match startCursor items p with
    | Except.ok c => placeParents ords ps (placeGroup items (nodesInLayerPerParent items ords p) c)
    | Except.error msg => Except.error msg

/-- `x_center_layer`: assign `x_center` to every record of one layer. -/
def x_center_layer (layer : Nat) (items : List InternalNode) : Except String (List InternalNode) :=
  let ords := nodeIdsInLayer items layer
  match parentsInLayer items ords with
  | Except.ok ps => placeParents ords ps items
  | Except.error msg => Except.error msg

/-- The height of the table: the maximal `y_order` (`0` for an empty table,
matching `max_by(...).unwrap_or_default()`). -/
def tableHeight (items : List InternalNode) : Nat :=
  items.foldl (fun a it => max a it.y_order) 0

/-- The layer loop of `apply_x_center` (`for l in 0..height + 1`). -/
def applyLayers : List Nat → List InternalNode → Except String (List InternalNode)
  | [], items => Except.ok items
  | l :: ls, items =>
    match x_center_layer l items with
    | Except.ok items2 => applyLayers ls items2
    | Except.error msg => Except.error msg

/-- `apply_x_center`: process the layers in increasing order, `0` first. -/
def apply_x_center (items : List InternalNode) : Except String (List InternalNode) :=
  applyLayers (List.range (tableHeight items + 1)) items

/-- `transfer_result`: drain the working table in `ord` order into the public
result collection. -/
def transfer_result (items : List InternalNode) : List EmbeddedNode :=
  items.map (fun e =>
    { y_order := e.y_order
      x_center := e.x_center
      text := e.text
      is_emphasized := e.is_emphasized
      ord := e.ord })

/-- The three passes of `Embedder::embed`, stopping before the result
transfer: the fully populated working table. -/
def embedTable {α : Type} (f : Forest α) (s : α → String) (em : α → Bool) :
    Except String (List InternalNode) :=
  match create_initial_embedding_data f s em with
  | Except.error msg => Except.error msg
  | Except.ok items0 => apply_x_center (apply_children_x_extents f items0)

/-- `Embedder::embed`: passes 1-3 followed by the result transfer. -/
def embed {α : Type} (f : Forest α) (s : α → String) (em : α → Bool) :
    Except String (List EmbeddedNode) :=
  match embedTable f s em with
  | Except.error msg => Except.error msg
  | Except.ok items => Except.ok (transfer_result items)

/-- Modelled from the spec: the renderer contract (`Drawer::draw`), a function
from an output path and the embedding to success or failure. -/
def DrawerFn : Type := String → List EmbeddedNode → Except String Unit

/-- The `Layouter` builder of `src/layouter.rs`: a tree reference, an optional
output path, an optional renderer, and the embedding produced so far. -/
structure Layouter (α : Type) where
  tree : Forest α
  drawer : Option DrawerFn
  file_name : Option String
  embedding : List EmbeddedNode

/-- `Layouter::new`. -/
def Layouter.new {α : Type} (tree : Forest α) : Layouter α :=
  { tree := tree, drawer := none, file_name := none, embedding := [] }

/-- `Layouter::with_file_path`. -/
def Layouter.with_file_path {α : Type} (l : Layouter α) (path : String) : Layouter α :=
  { tree := l.tree, file_name := some path, drawer := l.drawer, embedding := l.embedding }

/-- `Layouter::with_drawer`. -/
def Layouter.with_drawer {α : Type} (l : Layouter α) (d : DrawerFn) : Layouter α :=
  { tree := l.tree, file_name := l.file_name, drawer := some d, embedding := l.embedding }

/-- `Layouter::write`.  The default SVG renderer (`SvgDrawer`, out of scope per
the spec and not among the sources) is passed as the `svgDefault` collaborator:
the code constructs it and uses it exactly when no drawer was configured. -/
def Layouter.write {α : Type} (svgDefault : DrawerFn) (l : Layouter α) : Except String Unit :=
  if l.file_name = none then
    Except.error ("No output file name given - use Layouter::with_file_path.")
  else
    (l.drawer.getD svgDefault) (l.file_name.getD "") l.embedding

/-- Lookup helpers over the working table: the parent field at an ordinal. -/
def parentAt (items : List InternalNode) (m : Nat) : Option Nat :=
  (items[m]?.map (fun r => r.parent)).getD none

/-- The `x_extent_children` field at an ordinal (`0` when absent). -/
def xecAt (items : List InternalNode) (m : Nat) : Nat :=
  (items[m]?.map (fun r => r.x_extent_children)).getD 0

/-- The `x_extent_of_children` field at an ordinal (`0` when absent). -/
def xeocAt (items : List InternalNode) (m : Nat) : Nat :=
  (items[m]?.map (fun r => r.x_extent_of_children)).getD 0

/-- The `x_center` field at an ordinal (`0` when absent). -/
def xcAt (items : List InternalNode) (m : Nat) : Int :=
  (items[m]?.map (fun r => r.x_center)).getD 0

/-- The `y_order` field at an ordinal (`0` when absent). -/
def yAt (items : List InternalNode) (m : Nat) : Nat :=
  (items[m]?.map (fun r => r.y_order)).getD 0

/-- The start cursor value of one parent group, read off the table: `0` for the
root group, `parent.x_center - parent.x_extent_of_children / 2` otherwise. -/
def startVal (items : List InternalNode) : Option Nat → Int
  | some q => xcAt items q - ((xeocAt items q / 2 : Nat) : Int)
  | none => 0

/-- The sum of `x_extent_children` over a list of ordinals. -/
def preSum (items : List InternalNode) (l : List Nat) : Nat :=
  (l.map (xecAt items)).sum

/-- The group of one parent in one layer, as `x_center_layer` computes it. -/
def layerGroup (items : List InternalNode) (layer : Nat) (p : Option Nat) : List Nat :=
  nodesInLayerPerParent items (nodeIdsInLayer items layer) p

/-- The sum of `x_extent_children` over the records before position `i` whose
parent field is `some q`: the total width of the earlier siblings. -/
def sibSum (items : List InternalNode) (q i : Nat) : Nat :=
  (((List.range i).filter (fun m => decide (parentAt items m = some q))).map
    (xecAt items)).sum

/-- The sum of `x_extent_children` over all records whose parent field is
`some q`: the total width of the direct children of the node at `q`. -/
def groupSum (items : List InternalNode) (q : Nat) : Nat :=
  ((items.filter (fun r => decide (r.parent = some q))).map
    (fun r => r.x_extent_children)).sum

/-- The concrete scenario of the spec: a root labelled `A` with two children
labelled `B` and `CC`, in that sibling order. -/
def tree6 : RTree String :=
  RTree.node ("A")
    (Forest.cons (RTree.node ("B") Forest.nil)
      (Forest.cons (RTree.node ("CC") Forest.nil) Forest.nil))

/-- The concrete scenario as a single-root source tree. -/
def forest6 : Forest String := Forest.cons tree6 Forest.nil

/-- The working record the engine produces for the root `A` of the concrete
scenario (computed by running the three passes). -/
def recA : InternalNode :=
  { y_order := 0, x_center := 2, x_extent := 2, x_extent_of_children := 5,
    x_extent_children := 5, text := "A", is_emphasized := false, parent := none, ord := 0 }

/-- The working record for the leaf `B` of the concrete scenario. -/
def recB : InternalNode :=
  { y_order := 1, x_center := 1, x_extent := 2, x_extent_of_children := 0,
    x_extent_children := 2, text := "B", is_emphasized := false, parent := some 0, ord := 1 }

/-- The working record for the leaf `CC` of the concrete scenario. -/
def recCC : InternalNode :=
  { y_order := 1, x_center := 3, x_extent := 3, x_extent_of_children := 0,
    x_extent_children := 3, text := "CC", is_emphasized := false, parent := some 0, ord := 2 }

/-- The full working table of the concrete scenario after all three passes. -/
def items6 : List InternalNode := [recA, recB, recCC]

/-- A trivial renderer that accepts everything (used to exercise the wrapper). -/
def drawer0 : DrawerFn := fun _ _ => Except.ok ()

/-- A forest with two top-level children (two roots). -/
def forest2roots : Forest String :=
  Forest.cons (RTree.node ("A") Forest.nil)
    (Forest.cons (RTree.node ("B") Forest.nil) Forest.nil)

theorem sl_get_append_left {α : Type} (P R : List α) {i : Nat} (h : i < P.length) :
    (P ++ R)[i]? = P[i]? := by
  rw [List.getElem?_append]
  simp [h]

theorem sl_get_append_right {α : Type} (P R : List α) (k : Nat) :
    (P ++ R)[P.length + k]? = R[k]? := by
  rw [List.getElem?_append]
  have h1 : ¬ P.length + k < P.length := by omega
  simp [h1]

theorem sl_get_append_cons {α : Type} (P R : List α) (y : α) :
    (P ++ y :: R)[P.length]? = some y := by
  have := sl_get_append_right P (y :: R) 0
  simpa using this

theorem sl_set_append_cons {α : Type} (P R : List α) (y x : α) :
    (P ++ y :: R).set P.length x = P ++ x :: R := by
  induction P with
  | nil => simp
  | cons a P ih => simp [List.set, ih]

theorem sl_mem_iff_get {α : Type} (l : List α) (a : α) :
    a ∈ l ↔ ∃ i : Nat, l[i]? = some a := by
  constructor
  · intro h
    rcases List.mem_iff_getElem.mp h with ⟨i, hi, hget⟩
    exact ⟨i, by rw [List.getElem?_eq_getElem hi, hget]⟩
  · rintro ⟨i, hi⟩
    exact List.getElem?_mem hi

theorem sl_sorted_ext (l1 l2 : List Nat) (h1 : l1.Pairwise (· < ·))
    (h2 : l2.Pairwise (· < ·)) (hm : ∀ m, m ∈ l1 ↔ m ∈ l2) : l1 = l2 := by
  induction l1 generalizing l2 with
  | nil =>
    cases l2 with
    | nil => rfl
    | cons b l2 => exact absurd ((hm b).mpr (List.mem_cons_self b l2)) (by simp)
  | cons a l1 ih =>
    cases l2 with
    | nil => exact absurd ((hm a).mp (List.mem_cons_self a l1)) (by simp)
    | cons b l2 =>
      rcases List.pairwise_cons.mp h1 with ⟨ha, h1'⟩
      rcases List.pairwise_cons.mp h2 with ⟨hb, h2'⟩
      have hab : a = b := by
        have h3 := (hm a).mp (List.mem_cons_self a l1)
        have h4 := (hm b).mpr (List.mem_cons_self b l2)
        rcases List.mem_cons.mp h3 with h | h
        · exact h
        · rcases List.mem_cons.mp h4 with h' | h'
          · omega
          · have := hb a h
            have := ha b h'
            omega
      subst hab
      have hm' : ∀ m, m ∈ l1 ↔ m ∈ l2 := by
        intro m
        constructor
        · intro h
          rcases List.mem_cons.mp ((hm m).mp (List.mem_cons_of_mem a h)) with h' | h'
          · have := ha m h
            omega
          · exact h'
        · intro h
          rcases List.mem_cons.mp ((hm m).mpr (List.mem_cons_of_mem a h)) with h' | h'
          · have := hb m h
            omega
          · exact h'
      rw [ih l2 h1' h2' hm']

theorem sl_take_filter (g : List Nat) (k i : Nat) (hs : g.Pairwise (· < ·))
    (hk : g[k]? = some i) : g.filter (fun m => decide (m < i)) = g.take k := by
  induction g generalizing k with
  | nil => simp at hk
  | cons a g ih =>
    rcases List.pairwise_cons.mp hs with ⟨ha, hs'⟩
    cases k with
    | zero =>
      simp at hk
      subst hk
      have hfa : ∀ m ∈ g, ¬ (decide (m < a) = true) := by
        intro m hm
        have := ha m hm
        simp
        omega
      simp [List.filter_eq_nil_iff.mpr hfa]
    | succ k =>
      simp at hk
      have hi : i ∈ g := List.getElem?_mem hk
      have hai : a < i := ha i hi
      have hd : decide (a < i) = true := by simp [hai]
      simp only [List.filter_cons, List.take_succ_cons, hd, if_true]
      rw [ih k hs' hk]

theorem sl_range'_filter_append (p : Nat → Bool) (i j : Nat) (h : i < j) :
    (List.range j).filter p
      = (List.range i).filter p ++ (List.range' i (j - i)).filter p := by
  rw [List.range_eq_range', List.range_eq_range', ← List.filter_append]
  congr 1
  have := List.range'_append 0 i (j - i) 1
  simp at this
  rw [this]
  congr 1
  omega

theorem sl_foldl_max_init_le (l : List InternalNode) (a : Nat) :
    a ≤ l.foldl (fun a it => max a it.y_order) a := by
  induction l generalizing a with
  | nil => simp
  | cons x l ih =>
    simp only [List.foldl_cons]
    exact le_trans (Nat.le_max_left _ _) (ih (max a x.y_order))

theorem sl_height_le (l : List InternalNode) :
    ∀ (a : Nat) (r : InternalNode), r ∈ l →
      r.y_order ≤ l.foldl (fun a it => max a it.y_order) a := by
  induction l with
  | nil => intro a r h; simp at h
  | cons x l ih =>
    intro a r h
    simp only [List.foldl_cons]
    rcases List.mem_cons.mp h with h' | h'
    · subst h'
      exact le_trans (Nat.le_max_right _ _) (sl_foldl_max_init_le l (max a r.y_order))
    · exact ih (max a x.y_order) r h'

mutual
theorem build1_length {α : Type} (s : α → String) (em : α → Bool) (t : RTree α)
    (ord d : Nat) (p : Option Nat) : (build1 s em t ord d p).length = t.size := by
  cases t with
  | node v f =>
    simp [build1, RTree.size, build1F_length s em f (ord + 1) (d + 1) (some ord)]
    omega
theorem build1F_length {α : Type} (s : α → String) (em : α → Bool) (f : Forest α)
    (ord d : Nat) (p : Option Nat) : (build1F s em f ord d p).length = f.size := by
  cases f with
  | nil => simp [build1F, Forest.size]
  | cons t f =>
    simp [build1F, Forest.size, build1_length s em t ord d p,
      build1F_length s em f (ord + t.size) d p]
end

mutual
theorem build2_length {α : Type} (s : α → String) (em : α → Bool) (t : RTree α)
    (ord d : Nat) (p : Option Nat) : (build2 s em t ord d p).length = t.size := by
  cases t with
  | node v f =>
    simp [build2, RTree.size, build2F_length s em f (ord + 1) (d + 1) (some ord)]
    omega
theorem build2F_length {α : Type} (s : α → String) (em : α → Bool) (f : Forest α)
    (ord d : Nat) (p : Option Nat) : (build2F s em f ord d p).length = f.size := by
  cases f with
  | nil => simp [build2F, Forest.size]
  | cons t f =>
    simp [build2F, Forest.size, build2_length s em t ord d p,
      build2F_length s em f (ord + t.size) d p]
end

theorem build2_cons {α : Type} (s : α → String) (em : α → Bool) (v : α) (f : Forest α)
    (ord d : Nat) (p : Option Nat) :
    build2 s em (RTree.node v f) ord d p
      = { y_order := d, x_center := 0, x_extent := (s v).length + 1,
          x_extent_of_children := xecF s f,
          x_extent_children := max ((s v).length + 1) (xecF s f),
          text := s v, is_emphasized := em v, parent := p,
          ord := ord } :: build2F s em f (ord + 1) (d + 1) (some ord) := rfl

theorem sl_get_mid {α : Type} (Q L S : List α) (r : α) :
    (Q ++ (r :: L) ++ S)[Q.length]? = some r := by
  rw [List.append_assoc]
  simp only [List.cons_append]
  exact sl_get_append_cons Q (L ++ S) r

theorem sl_get_mid0 {α : Type} (Q M S : List α) (h : 0 < M.length) :
    (Q ++ M ++ S)[Q.length]? = M[0]? := by
  rw [List.append_assoc]
  have h0 := sl_get_append_right Q (M ++ S) 0
  simp only [Nat.add_zero] at h0
  rw [h0]
  exact sl_get_append_left M S h

theorem size_pos {α : Type} (t : RTree α) : 0 < t.size := by
  cases t with
  | node v f => simp [RTree.size]

theorem build2_get_zero {α : Type} (s : α → String) (em : α → Bool) (t : RTree α)
    (ord d : Nat) (p : Option Nat) :
    ∃ r, (build2 s em t ord d p)[0]? = some r ∧
      r.x_extent_children = t.xec s ∧
      r.x_extent_of_children = xecF s t.children ∧
      r.x_extent = (s t.value).length + 1 ∧
      r.parent = p ∧ r.y_order = d ∧ r.ord = ord ∧ r.x_center = 0 ∧
      r.text = s t.value ∧ r.is_emphasized = em t.value := by
  cases t with
  | node v f =>
    refine ⟨{ y_order := d
              x_center := 0
              x_extent := (s v).length + 1
              x_extent_of_children := xecF s f
              x_extent_children := max ((s v).length + 1) (xecF s f)
              text := s v
              is_emphasized := em v
              parent := p
              ord := ord },
      ?_, rfl, rfl, rfl, rfl, rfl, rfl, rfl, rfl, rfl⟩
    rw [build2_cons]
    simp

theorem sl_childSum {α : Type} (s : α → String) (em : α → Bool) (f : Forest α)
    (Q S' : List InternalNode) (ord d : Nat) (p : Option Nat) (hord : ord = Q.length) :
    childrenExtentSum (Q ++ build2F s em f ord d p ++ S') (childOrds f ord) = xecF s f := by
  cases f with
  | nil => simp [childOrds, childrenExtentSum, xecF]
  | cons t f =>
    subst hord
    simp only [childOrds, childrenExtentSum, build2F, xecF]
    obtain ⟨r, hr0, hrx, -⟩ := build2_get_zero s em t Q.length d p
    have hML : 0 < (build2 s em t Q.length d p ++ build2F s em f (Q.length + t.size) d p).length := by
      rw [List.length_append, build2_length]
      have := size_pos t
      omega
    have hget : (Q ++ (build2 s em t Q.length d p ++ build2F s em f (Q.length + t.size) d p) ++ S')[Q.length]?
        = some r := by
      rw [sl_get_mid0 _ _ _ hML]
      rw [sl_get_append_left _ _ (by rw [build2_length]; exact size_pos t)]
      exact hr0
    simp only [hget]
    rw [hrx]
    have hassoc : Q ++ (build2 s em t Q.length d p ++ build2F s em f (Q.length + t.size) d p) ++ S'
        = (Q ++ build2 s em t Q.length d p) ++ build2F s em f (Q.length + t.size) d p ++ S' := by
      simp [List.append_assoc]
    rw [hassoc]
    rw [sl_childSum s em f (Q ++ build2 s em t Q.length d p) S' (Q.length + t.size) d p
      (by simp [build2_length])]

theorem build1_cons {α : Type} (s : α → String) (em : α → Bool) (v : α) (f : Forest α)
    (ord d : Nat) (p : Option Nat) :
    build1 s em (RTree.node v f) ord d p
      = { y_order := d, x_center := 0, x_extent := (s v).length + 1,
          x_extent_of_children := (s v).length + 1,
          x_extent_children := (s v).length + 1,
          text := s v, is_emphasized := em v, parent := p,
          ord := ord } :: build1F s em f (ord + 1) (d + 1) (some ord) := rfl

theorem sl_cons_block {α : Type} (Q L S : List α) (a : α) :
    (Q ++ [a]) ++ L ++ S = Q ++ (a :: L) ++ S := by
  simp

theorem sl_set_mid {α : Type} (Q L S : List α) (r x : α) :
    (Q ++ (r :: L) ++ S).set Q.length x = Q ++ (x :: L) ++ S := by
  rw [List.append_assoc, List.append_assoc]
  simp only [List.cons_append]
  exact sl_set_append_cons Q (L ++ S) r x

mutual
theorem applyUp_master {α : Type} (s : α → String) (em : α → Bool) (t : RTree α)
    (ord : Nat) (P S : List InternalNode) (d : Nat) (p : Option Nat) (hord : ord = P.length) :
    applyUpEvents t ord (P ++ build1 s em t ord d p ++ S)
      = P ++ build2 s em t ord d p ++ S := by
  cases t with
  | node v f =>
    subst hord
    rw [build1_cons, build2_cons]
    generalize hr1 : ({ y_order := d
                        x_center := 0
                        x_extent := (s v).length + 1
                        x_extent_of_children := (s v).length + 1
                        x_extent_children := (s v).length + 1
                        text := s v
                        is_emphasized := em v
                        parent := p
                        ord := P.length } : InternalNode) = r1
    simp only [applyUpEvents]
    have hb : P ++ (r1 :: build1F s em f (P.length + 1) (d + 1) (some P.length)) ++ S
        = (P ++ [r1]) ++ build1F s em f (P.length + 1) (d + 1) (some P.length) ++ S := by
      simp
    rw [hb]
    rw [applyUpF_master s em f (P.length + 1) (P ++ [r1]) S (d + 1) (some P.length) (by simp)]
    have hget : ((P ++ [r1]) ++ build2F s em f (P.length + 1) (d + 1) (some P.length) ++ S)[P.length]?
        = some r1 := by
      rw [sl_cons_block]
      have := sl_get_mid P (build2F s em f (P.length + 1) (d + 1) (some P.length)) S r1
      exact this
    simp only [hget]
    rw [sl_childSum s em f (P ++ [r1]) S (P.length + 1) (d + 1) (some P.length) (by simp)]
    rw [sl_cons_block]
    rw [sl_set_mid]
    have hrec : ({ r1 with x_extent_of_children := xecF s f
                           x_extent_children := max r1.x_extent (xecF s f) } : InternalNode)
        = { y_order := d
            x_center := 0
            x_extent := (s v).length + 1
            x_extent_of_children := xecF s f
            x_extent_children := max ((s v).length + 1) (xecF s f)
            text := s v
            is_emphasized := em v
            parent := p
            ord := P.length } := by
      rw [← hr1]
    rw [hrec]
theorem applyUpF_master {α : Type} (s : α → String) (em : α → Bool) (f : Forest α)
    (ord : Nat) (P S : List InternalNode) (d : Nat) (p : Option Nat) (hord : ord = P.length) :
    applyUpEventsF f ord (P ++ build1F s em f ord d p ++ S)
      = P ++ build2F s em f ord d p ++ S := by
  cases f with
  | nil => simp [applyUpEventsF, build1F, build2F]
  | cons t f =>
    subst hord
    simp only [applyUpEventsF, build1F, build2F]
    have h1 : P ++ (build1 s em t P.length d p ++ build1F s em f (P.length + t.size) d p) ++ S
        = P ++ build1 s em t P.length d p ++ (build1F s em f (P.length + t.size) d p ++ S) := by
      simp [List.append_assoc]
    rw [h1]
    rw [applyUp_master s em t P.length P (build1F s em f (P.length + t.size) d p ++ S) d p rfl]
    have h2 : P ++ build2 s em t P.length d p ++ (build1F s em f (P.length + t.size) d p ++ S)
        = (P ++ build2 s em t P.length d p) ++ build1F s em f (P.length + t.size) d p ++ S := by
      simp [List.append_assoc]
    rw [h2]
    rw [applyUpF_master s em f (P.length + t.size) (P ++ build2 s em t P.length d p) S d p
      (by simp [build2_length])]
    simp [List.append_assoc]
end

theorem pass2_eq {α : Type} (s : α → String) (em : α → Bool) (f : Forest α) :
    apply_children_x_extents f (build1F s em f 0 0 none) = build2F s em f 0 0 none := by
  have := applyUpF_master s em f 0 [] [] 0 none rfl
  simpa [apply_children_x_extents] using this

mutual
theorem build2_struct {α : Type} (s : α → String) (em : α → Bool) (t : RTree α)
    (ord d : Nat) (p : Option Nat) :
    ∀ k r, (build2 s em t ord d p)[k]? = some r →
      r.ord = ord + k ∧
      ((k = 0 ∧ r.parent = p ∧ r.y_order = d) ∨
        (∃ q, ord ≤ q ∧ q < ord + k ∧ r.parent = some q ∧
          ∃ rq, (build2 s em t ord d p)[q - ord]? = some rq ∧ rq.y_order + 1 = r.y_order)) := by
  cases t with
  | node v f =>
    intro k r hk
    rw [build2_cons] at hk
    cases k with
    | zero =>
      simp at hk
      subst hk
      exact ⟨by simp, Or.inl ⟨rfl, rfl, rfl⟩⟩
    | succ k =>
      simp only [List.getElem?_cons_succ] at hk
      obtain ⟨hord, hcase⟩ := build2F_struct s em f (ord + 1) (d + 1) (some ord) k r hk
      have hordk : r.ord = ord + (k + 1) := by
        clear hcase
        omega
      refine ⟨hordk, ?_⟩
      rcases hcase with ⟨hp, hy⟩ | ⟨q, hq1, hq2, hp, rq, hrq, hy⟩
      · obtain ⟨rh, hgeth, -, -, -, -, hyh, -, -, -, -⟩ :=
          build2_get_zero s em (RTree.node v f) ord d p
        have hlk : (build2 s em (RTree.node v f) ord d p)[ord - ord]? = some rh := by
          rw [Nat.sub_self]
          exact hgeth
        have hyy : rh.y_order + 1 = r.y_order := by
          rw [hyh, hy]
        have hB : ord < ord + (k + 1) := by omega
        exact Or.inr ⟨ord, le_refl ord, hB, hp, rh, hlk, hyy⟩
      · have hA : ord ≤ q := by omega
        have hB : q < ord + (k + 1) := by omega
        refine Or.inr ⟨q, hA, hB, hp, rq, ?_, hy⟩
        rw [build2_cons]
        have hqi : q - ord = (q - (ord + 1)) + 1 := by omega
        rw [hqi]
        simpa using hrq
theorem build2F_struct {α : Type} (s : α → String) (em : α → Bool) (f : Forest α)
    (ord d : Nat) (p : Option Nat) :
    ∀ k r, (build2F s em f ord d p)[k]? = some r →
      r.ord = ord + k ∧
      ((r.parent = p ∧ r.y_order = d) ∨
        (∃ q, ord ≤ q ∧ q < ord + k ∧ r.parent = some q ∧
          ∃ rq, (build2F s em f ord d p)[q - ord]? = some rq ∧ rq.y_order + 1 = r.y_order)) := by
  cases f with
  | nil =>
    intro k r hk
    simp [build2F] at hk
  | cons t f =>
    intro k r hk
    simp only [build2F] at hk ⊢
    by_cases hlt : k < t.size
    · rw [sl_get_append_left _ _ (by rw [build2_length]; exact hlt)] at hk
      obtain ⟨hord, hcase⟩ := build2_struct s em t ord d p k r hk
      refine ⟨hord, ?_⟩
      rcases hcase with ⟨-, hp, hy⟩ | ⟨q, hq1, hq2, hp, rq, hrq, hy⟩
      · exact Or.inl ⟨hp, hy⟩
      · refine Or.inr ⟨q, hq1, hq2, hp, rq, ?_, hy⟩
        rw [sl_get_append_left _ _ (by rw [build2_length]; omega)]
        exact hrq
    · have hk2 : k = (build2 s em t ord d p).length + (k - t.size) := by
        rw [build2_length]
        omega
      rw [hk2, sl_get_append_right] at hk
      obtain ⟨hord, hcase⟩ := build2F_struct s em f (ord + t.size) d p (k - t.size) r hk
      have hordk : r.ord = ord + k := by
        clear hcase
        omega
      refine ⟨hordk, ?_⟩
      rcases hcase with ⟨hp, hy⟩ | ⟨q, hq1, hq2, hp, rq, hrq, hy⟩
      · exact Or.inl ⟨hp, hy⟩
      · have hA : ord ≤ q := by omega
        have hB : q < ord + k := by omega
        refine Or.inr ⟨q, hA, hB, hp, rq, ?_, hy⟩
        have hq3 : q - ord = (build2 s em t ord d p).length + (q - (ord + t.size)) := by
          rw [build2_length]
          omega
        rw [hq3, sl_get_append_right]
        exact hrq
end

mutual
theorem build2_widths {α : Type} (s : α → String) (em : α → Bool) (t : RTree α)
    (ord d : Nat) (p : Option Nat) :
    ∀ r ∈ build2 s em t ord d p,
      r.x_extent_children = max r.x_extent r.x_extent_of_children ∧ 1 ≤ r.x_extent := by
  cases t with
  | node v f =>
    intro r hr
    rw [build2_cons] at hr
    rcases List.mem_cons.mp hr with h | h
    · subst h
      constructor
      · rfl
      · simp
    · exact build2F_widths s em f (ord + 1) (d + 1) (some ord) r h
theorem build2F_widths {α : Type} (s : α → String) (em : α → Bool) (f : Forest α)
    (ord d : Nat) (p : Option Nat) :
    ∀ r ∈ build2F s em f ord d p,
      r.x_extent_children = max r.x_extent r.x_extent_of_children ∧ 1 ≤ r.x_extent := by
  cases f with
  | nil =>
    intro r hr
    simp [build2F] at hr
  | cons t f =>
    intro r hr
    simp only [build2F] at hr
    rcases List.mem_append.mp hr with h | h
    · exact build2_widths s em t ord d p r h
    · exact build2F_widths s em f (ord + t.size) d p r h
end

theorem sl_groupSum_cons (r : InternalNode) (L : List InternalNode) (q : Nat) :
    groupSum (r :: L) q
      = (if r.parent = some q then r.x_extent_children else 0) + groupSum L q := by
  by_cases h : r.parent = some q <;> simp [groupSum, List.filter_cons, h]

theorem sl_groupSum_append (A B : List InternalNode) (q : Nat) :
    groupSum (A ++ B) q = groupSum A q + groupSum B q := by
  simp [groupSum, List.filter_append]

theorem sl_xeocAt_cons_zero (r : InternalNode) (L : List InternalNode) :
    xeocAt (r :: L) 0 = r.x_extent_of_children := by
  simp [xeocAt]

theorem sl_xeocAt_cons_succ (r : InternalNode) (L : List InternalNode) (m : Nat) :
    xeocAt (r :: L) (m + 1) = xeocAt L m := by
  simp [xeocAt]

theorem sl_xeocAt_append_left (A B : List InternalNode) (m : Nat) (h : m < A.length) :
    xeocAt (A ++ B) m = xeocAt A m := by
  simp [xeocAt, sl_get_append_left A B h]

theorem sl_xeocAt_append_right (A B : List InternalNode) (k : Nat) :
    xeocAt (A ++ B) (A.length + k) = xeocAt B k := by
  simp [xeocAt, sl_get_append_right A B k]

mutual
theorem build2_groupSum {α : Type} (s : α → String) (em : α → Bool) (t : RTree α)
    (ord d : Nat) (p : Option Nat) :
    ∀ q : Nat, groupSum (build2 s em t ord d p) q
      = (if p = some q then t.xec s else 0)
        + (if ord ≤ q ∧ q < ord + t.size then xeocAt (build2 s em t ord d p) (q - ord) else 0) := by
  cases t with
  | node v g =>
    intro q
    rw [build2_cons, sl_groupSum_cons, build2F_groupSum s em g (ord + 1) (d + 1) (some ord) q]
    dsimp only
    simp only [RTree.size, RTree.xec]
    by_cases hq : q = ord
    · subst hq
      have h2 : ¬ (q + 1 ≤ q ∧ q < q + 1 + g.size) := by omega
      have h3 : q ≤ q ∧ q < q + (1 + g.size) := by omega
      rw [if_neg h2, if_pos h3, if_pos rfl, Nat.sub_self, sl_xeocAt_cons_zero]
      dsimp only
      omega
    · have h1 : ¬ (some ord = some q) := by
        intro hcontra
        injection hcontra with h
        exact hq h.symm
      rw [if_neg h1]
      by_cases h2 : ord + 1 ≤ q ∧ q < ord + 1 + g.size
      · have h3 : ord ≤ q ∧ q < ord + (1 + g.size) := by omega
        rw [if_pos h2, if_pos h3]
        have h4 : q - ord = (q - (ord + 1)) + 1 := by omega
        rw [h4, sl_xeocAt_cons_succ]
        omega
      · have h3 : ¬ (ord ≤ q ∧ q < ord + (1 + g.size)) := by omega
        rw [if_neg h2, if_neg h3]
theorem build2F_groupSum {α : Type} (s : α → String) (em : α → Bool) (f : Forest α)
    (ord d : Nat) (p : Option Nat) :
    ∀ q : Nat, groupSum (build2F s em f ord d p) q
      = (if p = some q then xecF s f else 0)
        + (if ord ≤ q ∧ q < ord + f.size then xeocAt (build2F s em f ord d p) (q - ord) else 0) := by
  cases f with
  | nil =>
    intro q
    have h2 : ¬ (ord ≤ q ∧ q < ord + (Forest.nil : Forest α).size) := by
      simp only [Forest.size]
      omega
    simp [build2F, groupSum, xecF, h2]
  | cons t f =>
    intro q
    simp only [build2F]
    rw [sl_groupSum_append, build2_groupSum s em t ord d p q,
      build2F_groupSum s em f (ord + t.size) d p q]
    simp only [Forest.size, xecF]
    have hlen : (build2 s em t ord d p).length = t.size := build2_length s em t ord d p
    by_cases hA : ord ≤ q ∧ q < ord + t.size
    · have hB : ¬ (ord + t.size ≤ q ∧ q < ord + t.size + f.size) := by omega
      have hC : ord ≤ q ∧ q < ord + (t.size + f.size) := by omega
      rw [if_pos hA, if_neg hB, if_pos hC]
      rw [sl_xeocAt_append_left _ _ _ (by omega)]
      by_cases hp : p = some q <;> simp [hp] <;> omega
    · by_cases hB : ord + t.size ≤ q ∧ q < ord + t.size + f.size
      · have hC : ord ≤ q ∧ q < ord + (t.size + f.size) := by omega
        rw [if_neg hA, if_pos hB, if_pos hC]
        have h4 : q - ord = (build2 s em t ord d p).length + (q - (ord + t.size)) := by omega
        rw [h4, sl_xeocAt_append_right]
        by_cases hp : p = some q <;> simp [hp] <;> omega
      · have hC : ¬ (ord ≤ q ∧ q < ord + (t.size + f.size)) := by omega
        rw [if_neg hA, if_neg hB, if_neg hC]
        by_cases hp : p = some q <;> simp [hp]
end

theorem sl_get_lt {α : Type} (l : List α) (i : Nat) (a : α) (h : l[i]? = some a) :
    i < l.length := by
  by_contra hc
  push_neg at hc
  rw [List.getElem?_eq_none_iff.mpr hc] at h
  exact Option.noConfusion h

theorem sl_with_with (a : InternalNode) (x1 x2 : Int) :
    ({ { a with x_center := x1 } with x_center := x2 } : InternalNode)
      = { a with x_center := x2 } := rfl

theorem sl_with_self (a : InternalNode) : ({ a with x_center := a.x_center } : InternalNode) = a := rfl

theorem sl_with_eq (a : InternalNode) (x1 x2 : Int) (h : x1 = x2) :
    ({ a with x_center := x1 } : InternalNode) = { a with x_center := x2 } := by
  rw [h]

theorem placeGroup_length (g : List Nat) (items : List InternalNode) (c : Int) :
    (placeGroup items g c).length = items.length := by
  induction g generalizing items c with
  | nil => rfl
  | cons m g ih =>
    simp only [placeGroup]
    cases hm : items[m]? with
    | none => exact ih items c
    | some it =>
      rw [ih]
      simp

theorem placeGroup_untouched (g : List Nat) (items : List InternalNode) (c : Int)
    (i : Nat) (hi : i ∉ g) : (placeGroup items g c)[i]? = items[i]? := by
  induction g generalizing items c with
  | nil => rfl
  | cons m g ih =>
    have him : i ≠ m := by
      intro hcontra
      exact hi (hcontra ▸ List.mem_cons_self m g)
    have hig : i ∉ g := fun h => hi (List.mem_cons_of_mem m h)
    simp only [placeGroup]
    cases hm : items[m]? with
    | none => exact ih items c hig
    | some it =>
      rw [ih _ _ hig]
      exact List.getElem?_set_ne (Ne.symm him)

theorem placeGroup_fields (g : List Nat) (items : List InternalNode) (c : Int) :
    ∀ (i : Nat) (a : InternalNode), items[i]? = some a →
      ∃ x : Int, (placeGroup items g c)[i]? = some { a with x_center := x } := by
  induction g generalizing items c with
  | nil =>
    intro i a ha
    exact ⟨a.x_center, by rw [sl_with_self]; exact ha⟩
  | cons m g ih =>
    intro i a ha
    simp only [placeGroup]
    cases hm : items[m]? with
    | none => exact ih items c i a ha
    | some it =>
      by_cases him : i = m
      · subst him
        have hit : it = a := by
          rw [hm] at ha
          exact Option.some.inj ha
        subst hit
        have hset : (items.set i { it with x_center := c + ((it.x_extent_children / 2 : Nat) : Int) })[i]?
            = some { it with x_center := c + ((it.x_extent_children / 2 : Nat) : Int) } := by
          have hlen : i < items.length := sl_get_lt items i it hm
          rw [List.getElem?_set_self (by simpa using hlen)]
        obtain ⟨x, hx⟩ := ih _ (c + (it.x_extent_children : Int)) i _ hset
        exact ⟨x, by rw [hx, sl_with_with]⟩
      · have hset : (items.set m { it with x_center := c + ((it.x_extent_children / 2 : Nat) : Int) })[i]?
            = some a := by
          rw [List.getElem?_set_ne (Ne.symm him)]
          exact ha
        exact ih _ (c + (it.x_extent_children : Int)) i a hset

theorem sl_xecAt_xonly (items : List InternalNode) (m : Nat) (it : InternalNode) (x : Int)
    (hm : items[m]? = some it) :
    ∀ n, xecAt (items.set m { it with x_center := x }) n = xecAt items n := by
  intro n
  by_cases hnm : n = m
  · subst hnm
    have hlen : n < items.length := sl_get_lt items n it hm
    unfold xecAt
    rw [List.getElem?_set_self (by simpa using hlen), hm]
    simp [hlen]
  · unfold xecAt
    rw [List.getElem?_set_ne (Ne.symm hnm)]

theorem sl_preSum_congr (items1 items2 : List InternalNode) (l : List Nat)
    (h : ∀ n, xecAt items1 n = xecAt items2 n) : preSum items1 l = preSum items2 l := by
  unfold preSum
  congr 1
  exact List.map_congr_left (fun n _ => h n)

theorem placeGroup_char (g : List Nat) (items : List InternalNode) (c : Int)
    (hs : g.Pairwise (· < ·)) (hb : ∀ m ∈ g, m < items.length) :
    ∀ (k i : Nat), g[k]? = some i →
      ∃ a : InternalNode, items[i]? = some a ∧
        (placeGroup items g c)[i]?
          = some { a with x_center := c + ((preSum items (g.take k) : Nat) : Int)
              + ((a.x_extent_children / 2 : Nat) : Int) } := by
  induction g generalizing items c with
  | nil =>
    intro k i hk
    simp at hk
  | cons m g ih =>
    rcases List.pairwise_cons.mp hs with ⟨hma, hs'⟩
    intro k i hk
    have hmlen : m < items.length := hb m (List.mem_cons_self m g)
    obtain ⟨it, hit⟩ : ∃ it, items[m]? = some it := by
      rw [List.getElem?_eq_getElem hmlen]
      exact ⟨items[m], rfl⟩
    have hstep : placeGroup items (m :: g) c
        = placeGroup (items.set m { it with x_center := c + ((it.x_extent_children / 2 : Nat) : Int) })
            g (c + (it.x_extent_children : Int)) := by
      simp only [placeGroup, hit]
    set items' := items.set m { it with x_center := c + ((it.x_extent_children / 2 : Nat) : Int) } with hitems'
    have hlen' : items'.length = items.length := by
      rw [hitems']
      simp
    cases k with
    | zero =>
      simp only [List.getElem?_cons_zero] at hk
      have him : i = m := (Option.some.inj hk).symm
      subst him
      refine ⟨it, hit, ?_⟩
      rw [hstep]
      have hnot : i ∉ g := by
        intro hcontra
        exact absurd rfl (Nat.ne_of_lt (hma i hcontra))
      rw [placeGroup_untouched g items' _ i hnot]
      rw [hitems']
      rw [List.getElem?_set_self (by simpa using hmlen)]
      have harith : c + ((it.x_extent_children / 2 : Nat) : Int)
          = c + ((preSum items ((i :: g).take 0) : Nat) : Int)
            + ((it.x_extent_children / 2 : Nat) : Int) := by
        simp [preSum]
      rw [← harith]
    | succ k =>
      simp only [List.getElem?_cons_succ] at hk
      have hb' : ∀ n ∈ g, n < items'.length := by
        intro n hn
        rw [hlen']
        exact hb n (List.mem_cons_of_mem m hn)
      obtain ⟨a', ha'1, ha'2⟩ := ih items' (c + (it.x_extent_children : Int)) hs' hb' k i hk
      have hig : i ∈ g := List.getElem?_mem hk
      have him : m ≠ i := Nat.ne_of_lt (hma i hig)
      have ha'items : items[i]? = some a' := by
        rw [hitems'] at ha'1
        rw [List.getElem?_set_ne him] at ha'1
        exact ha'1
      refine ⟨a', ha'items, ?_⟩
      rw [hstep, ha'2]
      have hxec : ∀ n, xecAt items' n = xecAt items n := by
        rw [hitems']
        exact sl_xecAt_xonly items m it _ hit
      have hsum : preSum items' (g.take k) = preSum items (g.take k) :=
        sl_preSum_congr _ _ _ hxec
      have hxm : xecAt items m = it.x_extent_children := by
        unfold xecAt
        rw [hit]
        rfl
      have harith : c + (it.x_extent_children : Int) + ((preSum items' (g.take k) : Nat) : Int)
          + ((a'.x_extent_children / 2 : Nat) : Int)
          = c + ((preSum items ((m :: g).take (k + 1)) : Nat) : Int)
            + ((a'.x_extent_children / 2 : Nat) : Int) := by
        rw [hsum]
        simp only [List.take_succ_cons, preSum, List.map_cons, List.sum_cons, hxm]
        push_cast
        ring
      rw [harith]

theorem nidla_ge (layer : Nat) (l : List InternalNode) :
    ∀ (n m : Nat), m ∈ nodeIdsInLayerAux layer l n → n ≤ m := by
  induction l with
  | nil =>
    intro n m hm
    simp [nodeIdsInLayerAux] at hm
  | cons it rest ih =>
    intro n m hm
    simp only [nodeIdsInLayerAux] at hm
    by_cases h : it.y_order = layer
    · rw [if_pos h] at hm
      rcases List.mem_cons.mp hm with h' | h'
      · omega
      · have := ih (n + 1) m h'
        omega
    · rw [if_neg h] at hm
      have := ih (n + 1) m hm
      omega

theorem nidla_pairwise (layer : Nat) (l : List InternalNode) :
    ∀ n : Nat, (nodeIdsInLayerAux layer l n).Pairwise (· < ·) := by
  induction l with
  | nil =>
    intro n
    simp [nodeIdsInLayerAux]
  | cons it rest ih =>
    intro n
    simp only [nodeIdsInLayerAux]
    by_cases h : it.y_order = layer
    · rw [if_pos h]
      refine List.pairwise_cons.mpr ⟨?_, ih (n + 1)⟩
      intro m hm
      have := nidla_ge layer rest (n + 1) m hm
      omega
    · rw [if_neg h]
      exact ih (n + 1)

theorem nidla_mem (layer : Nat) (l : List InternalNode) :
    ∀ (n i : Nat), i ∈ nodeIdsInLayerAux layer l n
      ↔ ∃ (k : Nat) (r : InternalNode), i = n + k ∧ l[k]? = some r ∧ r.y_order = layer := by
  induction l with
  | nil =>
    intro n i
    simp [nodeIdsInLayerAux]
  | cons it rest ih =>
    intro n i
    simp only [nodeIdsInLayerAux]
    constructor
    · intro hm
      by_cases h : it.y_order = layer
      · rw [if_pos h] at hm
        rcases List.mem_cons.mp hm with h' | h'
        · exact ⟨0, it, by omega, by simp, h⟩
        · obtain ⟨k, r, hik, hk, hy⟩ := (ih (n + 1) i).mp h'
          exact ⟨k + 1, r, by omega, by simpa using hk, hy⟩
      · rw [if_neg h] at hm
        obtain ⟨k, r, hik, hk, hy⟩ := (ih (n + 1) i).mp hm
        exact ⟨k + 1, r, by omega, by simpa using hk, hy⟩
    · rintro ⟨k, r, hik, hk, hy⟩
      cases k with
      | zero =>
        simp at hk
        subst hk
        rw [if_pos hy]
        have : i = n := by omega
        subst this
        exact List.mem_cons_self _ _
      | succ k =>
        simp only [List.getElem?_cons_succ] at hk
        have hmem : i ∈ nodeIdsInLayerAux layer rest (n + 1) :=
          (ih (n + 1) i).mpr ⟨k, r, by omega, hk, hy⟩
        by_cases h : it.y_order = layer
        · rw [if_pos h]
          exact List.mem_cons_of_mem _ hmem
        · rw [if_neg h]
          exact hmem

theorem nodeIdsInLayer_mem (items : List InternalNode) (layer i : Nat) :
    i ∈ nodeIdsInLayer items layer
      ↔ ∃ r : InternalNode, items[i]? = some r ∧ r.y_order = layer := by
  unfold nodeIdsInLayer
  rw [nidla_mem layer items 0 i]
  constructor
  · rintro ⟨k, r, hik, hk, hy⟩
    have : i = k := by omega
    subst this
    exact ⟨r, hk, hy⟩
  · rintro ⟨r, hr, hy⟩
    exact ⟨i, r, by omega, hr, hy⟩

theorem nodeIdsInLayer_pairwise (items : List InternalNode) (layer : Nat) :
    (nodeIdsInLayer items layer).Pairwise (· < ·) :=
  nidla_pairwise layer items 0

theorem nodeIdsInLayer_bound (items : List InternalNode) (layer : Nat) :
    ∀ m ∈ nodeIdsInLayer items layer, m < items.length := by
  intro m hm
  obtain ⟨r, hr, -⟩ := (nodeIdsInLayer_mem items layer m).mp hm
  exact sl_get_lt items m r hr

theorem parentsInLayer_ok (items : List InternalNode) (ords : List Nat)
    (h : ∀ m ∈ ords, ∃ r : InternalNode, items[m]? = some r) :
    parentsInLayer items ords = Except.ok (ords.map (parentAt items)) := by
  induction ords with
  | nil => rfl
  | cons m rest ih =>
    obtain ⟨r, hr⟩ := h m (List.mem_cons_self m rest)
    simp only [parentsInLayer, hr]
    rw [ih (fun n hn => h n (List.mem_cons_of_mem m hn))]
    have hp : parentAt items m = r.parent := by
      unfold parentAt
      rw [hr]
      rfl
    simp [hp]

theorem nlpp_sublist (items : List InternalNode) (ords : List Nat) (p : Option Nat) :
    (nodesInLayerPerParent items ords p).Sublist ords := by
  induction ords with
  | nil => simp [nodesInLayerPerParent]
  | cons m rest ih =>
    simp only [nodesInLayerPerParent]
    cases hm : items[m]? with
    | none => exact ih.cons m
    | some node =>
      dsimp only
      by_cases hp : node.parent = p
      · rw [if_pos hp]
        exact ih.cons₂ m
      · rw [if_neg hp]
        exact ih.cons m

theorem nlpp_mem (items : List InternalNode) (ords : List Nat) (p : Option Nat) :
    ∀ m : Nat, m ∈ nodesInLayerPerParent items ords p
      ↔ m ∈ ords ∧ ∃ r : InternalNode, items[m]? = some r ∧ r.parent = p := by
  induction ords with
  | nil =>
    intro m
    simp [nodesInLayerPerParent]
  | cons a rest ih =>
    intro m
    simp only [nodesInLayerPerParent]
    cases ha : items[a]? with
    | none =>
      rw [ih m]
      constructor
      · rintro ⟨h1, h2⟩
        exact ⟨List.mem_cons_of_mem a h1, h2⟩
      · rintro ⟨h1, r, hr, hp⟩
        rcases List.mem_cons.mp h1 with h' | h'
        · subst h'
          rw [ha] at hr
          exact Option.noConfusion hr
        · exact ⟨h', r, hr, hp⟩
    | some node =>
      dsimp only
      by_cases hp : node.parent = p
      · rw [if_pos hp]
        constructor
        · intro hm
          rcases List.mem_cons.mp hm with h' | h'
          · subst h'
            exact ⟨List.mem_cons_self m rest, node, ha, hp⟩
          · obtain ⟨h1, h2⟩ := (ih m).mp h'
            exact ⟨List.mem_cons_of_mem a h1, h2⟩
        · rintro ⟨h1, r, hr, hrp⟩
          rcases List.mem_cons.mp h1 with h' | h'
          · subst h'
            exact List.mem_cons_self m _
          · exact List.mem_cons_of_mem _ ((ih m).mpr ⟨h', r, hr, hrp⟩)
      · rw [if_neg hp]
        rw [ih m]
        constructor
        · rintro ⟨h1, h2⟩
          exact ⟨List.mem_cons_of_mem a h1, h2⟩
        · rintro ⟨h1, r, hr, hrp⟩
          rcases List.mem_cons.mp h1 with h' | h'
          · subst h'
            rw [ha] at hr
            have : node = r := Option.some.inj hr
            subst this
            exact absurd hrp hp
          · exact ⟨h', r, hr, hrp⟩

theorem nlpp_congr (items1 items2 : List InternalNode) (ords : List Nat) (p : Option Nat)
    (h : ∀ m ∈ ords, items1[m]?.map (fun r => r.parent) = items2[m]?.map (fun r => r.parent)) :
    nodesInLayerPerParent items1 ords p = nodesInLayerPerParent items2 ords p := by
  induction ords with
  | nil => rfl
  | cons a rest ih =>
    have ha := h a (List.mem_cons_self a rest)
    have hrest := fun n hn => h n (List.mem_cons_of_mem a hn)
    simp only [nodesInLayerPerParent]
    cases h1 : items1[a]? with
    | none =>
      rw [h1] at ha
      cases h2 : items2[a]? with
      | none => exact ih hrest
      | some node2 =>
        rw [h2] at ha
        simp at ha
    | some node1 =>
      rw [h1] at ha
      cases h2 : items2[a]? with
      | none =>
        rw [h2] at ha
        simp at ha
      | some node2 =>
        rw [h2] at ha
        simp at ha
        dsimp only
        rw [ha, ih hrest]

theorem placeParents_inv (items : List InternalNode) (layer : Nat) :
    ∀ (ps PS : List (Option Nat)) (cur : List InternalNode),
    (∀ p ∈ ps, p = none ∨ ∃ (q : Nat) (rq : InternalNode),
        p = some q ∧ items[q]? = some rq ∧ rq.y_order ≠ layer) →
    cur.length = items.length →
    (∀ (i : Nat) (r : InternalNode), items[i]? = some r → r.y_order ≠ layer → cur[i]? = some r) →
    (∀ (i : Nat) (r : InternalNode), items[i]? = some r → r.y_order = layer →
      (r.parent ∈ PS → cur[i]? = some { r with x_center := startVal items r.parent
          + ((preSum items ((layerGroup items layer r.parent).filter (fun m => decide (m < i))) : Nat) : Int)
          + ((r.x_extent_children / 2 : Nat) : Int) }) ∧
      (r.parent ∉ PS → cur[i]? = some r)) →
    ∃ out, placeParents (nodeIdsInLayer items layer) ps cur = Except.ok out ∧
      out.length = items.length ∧
      (∀ (i : Nat) (r : InternalNode), items[i]? = some r → r.y_order ≠ layer → out[i]? = some r) ∧
      (∀ (i : Nat) (r : InternalNode), items[i]? = some r → r.y_order = layer →
        (r.parent ∈ PS ++ ps → out[i]? = some { r with x_center := startVal items r.parent
            + ((preSum items ((layerGroup items layer r.parent).filter (fun m => decide (m < i))) : Nat) : Int)
            + ((r.x_extent_children / 2 : Nat) : Int) }) ∧
        (r.parent ∉ PS ++ ps → out[i]? = some r)) := by
  intro ps
  induction ps with
  | nil =>
    intro PS cur hps hc1 hc2 hc3
    refine ⟨cur, rfl, hc1, hc2, ?_⟩
    simpa using hc3
  | cons p ps ih =>
    intro PS cur hps hc1 hc2 hc3
    have hfields : ∀ m : Nat,
        cur[m]?.map (fun r => r.parent) = items[m]?.map (fun r => r.parent)
          ∧ xecAt cur m = xecAt items m := by
      intro m
      by_cases hm : m < items.length
      · have hitem : items[m]? = some items[m] := List.getElem?_eq_getElem hm
        by_cases hy : (items[m]).y_order = layer
        · rcases hc3 m items[m] hitem hy with ⟨hin, hout⟩
          by_cases hPS : (items[m]).parent ∈ PS
          · have := hin hPS
            rw [this, hitem]
            constructor
            · rfl
            · unfold xecAt
              rw [this, hitem]
              rfl
          · have := hout hPS
            rw [this, hitem]
            exact ⟨rfl, by unfold xecAt; rw [this, hitem]⟩
        · have := hc2 m items[m] hitem hy
          rw [this, hitem]
          exact ⟨rfl, by unfold xecAt; rw [this, hitem]⟩
      · have h1 : items[m]? = none := List.getElem?_eq_none_iff.mpr (by omega)
        have h2 : cur[m]? = none := List.getElem?_eq_none_iff.mpr (by omega)
        rw [h1, h2]
        exact ⟨rfl, by unfold xecAt; rw [h1, h2]⟩
    have hstart : startCursor cur p = Except.ok (startVal items p) := by
      rcases hps p (List.mem_cons_self p ps) with hnone | ⟨q, rq, hpq, hq, hqy⟩
      · subst hnone
        rfl
      · subst hpq
        have hcq : cur[q]? = some rq := hc2 q rq hq hqy
        have hsv : startVal items (some q)
            = rq.x_center - ((rq.x_extent_of_children / 2 : Nat) : Int) := by
          simp [startVal, xcAt, xeocAt, hq]
        simp only [startCursor, hcq, hsv]
    have hgroup : nodesInLayerPerParent cur (nodeIdsInLayer items layer) p
        = layerGroup items layer p := by
      unfold layerGroup
      exact nlpp_congr cur items (nodeIdsInLayer items layer) p
        (fun m _ => (hfields m).1)
    have hGpair : (layerGroup items layer p).Pairwise (· < ·) :=
      (nodeIdsInLayer_pairwise items layer).sublist (nlpp_sublist items (nodeIdsInLayer items layer) p)
    have hGbound : ∀ m ∈ layerGroup items layer p, m < cur.length := by
      intro m hm
      rw [hc1]
      exact nodeIdsInLayer_bound items layer m
        ((nlpp_sublist items (nodeIdsInLayer items layer) p).mem hm)
    have hstep : placeParents (nodeIdsInLayer items layer) (p :: ps) cur
        = placeParents (nodeIdsInLayer items layer) ps
            (placeGroup cur (layerGroup items layer p) (startVal items p)) := by
      simp only [placeParents, hstart, hgroup]
    set cur' := placeGroup cur (layerGroup items layer p) (startVal items p) with hcur'
    have hc1' : cur'.length = items.length := by
      rw [hcur', placeGroup_length, hc1]
    have hc2' : ∀ (i : Nat) (r : InternalNode), items[i]? = some r → r.y_order ≠ layer →
        cur'[i]? = some r := by
      intro i r hi hy
      have hnotin : i ∉ layerGroup items layer p := by
        intro hcontra
        obtain ⟨hords, r', hr', -⟩ := (nlpp_mem items (nodeIdsInLayer items layer) p i).mp hcontra
        obtain ⟨r'', hr'', hy''⟩ := (nodeIdsInLayer_mem items layer i).mp hords
        rw [hi] at hr''
        exact hy (Option.some.inj hr'' ▸ hy'')
      rw [hcur', placeGroup_untouched _ _ _ _ hnotin]
      exact hc2 i r hi hy
    have hc3' : ∀ (i : Nat) (r : InternalNode), items[i]? = some r → r.y_order = layer →
        (r.parent ∈ PS ++ [p] → cur'[i]? = some { r with x_center := startVal items r.parent
            + ((preSum items ((layerGroup items layer r.parent).filter (fun m => decide (m < i))) : Nat) : Int)
            + ((r.x_extent_children / 2 : Nat) : Int) }) ∧
        (r.parent ∉ PS ++ [p] → cur'[i]? = some r) := by
      intro i r hi hy
      by_cases hrp : r.parent = p
      · have hiG : i ∈ layerGroup items layer p := by
          refine (nlpp_mem items (nodeIdsInLayer items layer) p i).mpr ⟨?_, r, hi, hrp⟩
          exact (nodeIdsInLayer_mem items layer i).mpr ⟨r, hi, hy⟩
        obtain ⟨k, hk⟩ := (sl_mem_iff_get (layerGroup items layer p) i).mp hiG
        obtain ⟨a, ha1, ha2⟩ :=
          placeGroup_char (layerGroup items layer p) cur (startVal items p) hGpair hGbound k i hk
        have hax : ∃ x0 : Int, a = { r with x_center := x0 } := by
          rcases hc3 i r hi hy with ⟨hin, hout⟩
          by_cases hPS : r.parent ∈ PS
          · have := hin hPS
            rw [this] at ha1
            exact ⟨_, (Option.some.inj ha1).symm⟩
          · have := hout hPS
            rw [this] at ha1
            exact ⟨r.x_center, by rw [(Option.some.inj ha1).symm, sl_with_self]⟩
        obtain ⟨x0, hx0⟩ := hax
        have hsum : preSum cur ((layerGroup items layer p).take k)
            = preSum items ((layerGroup items layer p).take k) :=
          sl_preSum_congr cur items _ (fun n => (hfields n).2)
        have hfilter : (layerGroup items layer p).filter (fun m => decide (m < i))
            = (layerGroup items layer p).take k :=
          sl_take_filter _ k i hGpair hk
        constructor
        · intro hmem
          rw [hcur', ha2, hx0, sl_with_with]
          dsimp only
          rw [hrp, hfilter, hsum]
        · intro hmem
          exact absurd (by simp [hrp]) hmem
      · have hnotin : i ∉ layerGroup items layer p := by
          intro hcontra
          obtain ⟨-, r', hr', hp'⟩ := (nlpp_mem items (nodeIdsInLayer items layer) p i).mp hcontra
          rw [hi] at hr'
          exact hrp ((Option.some.inj hr') ▸ hp')
        have huntouched : cur'[i]? = cur[i]? := by
          rw [hcur']
          exact placeGroup_untouched _ _ _ _ hnotin
        rcases hc3 i r hi hy with ⟨hin, hout⟩
        constructor
        · intro hmem
          have hPSmem : r.parent ∈ PS := by
            rcases List.mem_append.mp hmem with h | h
            · exact h
            · simp at h
              exact absurd h hrp
          rw [huntouched]
          exact hin hPSmem
        · intro hmem
          have hPSnot : r.parent ∉ PS := fun h => hmem (List.mem_append_left _ h)
          rw [huntouched]
          exact hout hPSnot
    obtain ⟨out, hout1, hout2, hout3, hout4⟩ :=
      ih (PS ++ [p]) cur' (fun p' hp' => hps p' (List.mem_cons_of_mem p hp')) hc1' hc2' hc3'
    refine ⟨out, ?_, hout2, hout3, ?_⟩
    · rw [hstep]
      exact hout1
    · intro i r hi hy
      rcases hout4 i r hi hy with ⟨hin, hnot⟩
      constructor
      · intro hmem
        apply hin
        rw [List.append_assoc]
        simpa using hmem
      · intro hmem
        apply hnot
        intro hcontra
        apply hmem
        rw [List.append_assoc] at hcontra
        simpa using hcontra

theorem table_parent_struct {α : Type} (s : α → String) (em : α → Bool) (f : Forest α) :
    ∀ (i : Nat) (r : InternalNode) (q : Nat),
      (build2F s em f 0 0 none)[i]? = some r → r.parent = some q →
      q < i ∧ ∃ rq, (build2F s em f 0 0 none)[q]? = some rq ∧ rq.y_order + 1 = r.y_order := by
  intro i r q hi hp
  obtain ⟨-, hcase⟩ := build2F_struct s em f 0 0 none i r hi
  rcases hcase with ⟨hp', -⟩ | ⟨q', hq1, hq2, hp', rq, hrq, hy⟩
  · rw [hp] at hp'
    exact Option.noConfusion hp'
  · rw [hp] at hp'
    have hqq : q' = q := Option.some.inj hp'.symm
    subst hqq
    refine ⟨by omega, rq, ?_, hy⟩
    simpa using hrq

theorem table_root_only {α : Type} (s : α → String) (em : α → Bool) (f : Forest α)
    (hroot : f.rootCount ≤ 1) :
    ∀ (i : Nat) (r : InternalNode),
      (build2F s em f 0 0 none)[i]? = some r → r.parent = none → i = 0 := by
  intro i r hi hp
  cases f with
  | nil =>
    simp [build2F] at hi
  | cons t f' =>
    cases f' with
    | nil =>
      have heq : build2F s em (Forest.cons t Forest.nil) 0 0 none = build2 s em t 0 0 none := by
        simp [build2F]
      rw [heq] at hi
      obtain ⟨-, hcase⟩ := build2_struct s em t 0 0 none i r hi
      rcases hcase with ⟨hk, -, -⟩ | ⟨q, -, -, hp', -⟩
      · exact hk
      · rw [hp] at hp'
        exact Option.noConfusion hp'
    | cons t2 f2 =>
      simp [Forest.rootCount] at hroot

theorem sl_table_inv (items2 cur : List InternalNode) (hc1 : cur.length = items2.length)
    (hc2b : ∀ (i : Nat) (r : InternalNode), items2[i]? = some r →
      ∃ x : Int, cur[i]? = some { r with x_center := x }) :
    ∀ (i : Nat) (rc : InternalNode), cur[i]? = some rc →
      ∃ r2, items2[i]? = some r2 ∧ rc = { r2 with x_center := rc.x_center } := by
  intro i rc hrc
  have hlen : i < items2.length := by
    have := sl_get_lt cur i rc hrc
    omega
  obtain ⟨x, hx⟩ := hc2b i items2[i] (List.getElem?_eq_getElem hlen)
  rw [hrc] at hx
  have heq : rc = { items2[i] with x_center := x } := Option.some.inj hx
  refine ⟨items2[i], List.getElem?_eq_getElem hlen, ?_⟩
  rw [heq]

theorem sl_fields_agree (items2 cur : List InternalNode) (hc1 : cur.length = items2.length)
    (hc2b : ∀ (i : Nat) (r : InternalNode), items2[i]? = some r →
      ∃ x : Int, cur[i]? = some { r with x_center := x }) :
    ∀ m : Nat, parentAt cur m = parentAt items2 m ∧ xecAt cur m = xecAt items2 m
      ∧ xeocAt cur m = xeocAt items2 m ∧ yAt cur m = yAt items2 m := by
  intro m
  by_cases hm : m < items2.length
  · obtain ⟨x, hx⟩ := hc2b m items2[m] (List.getElem?_eq_getElem hm)
    have h2 : items2[m]? = some items2[m] := List.getElem?_eq_getElem hm
    unfold parentAt xecAt xeocAt yAt
    rw [hx, h2]
    exact ⟨rfl, rfl, rfl, rfl⟩
  · have h1 : items2[m]? = none := List.getElem?_eq_none_iff.mpr (by omega)
    have h2 : cur[m]? = none := List.getElem?_eq_none_iff.mpr (by omega)
    unfold parentAt xecAt xeocAt yAt
    rw [h1, h2]
    exact ⟨rfl, rfl, rfl, rfl⟩

theorem sl_sibSum_congr (t1 t2 : List InternalNode)
    (hp : ∀ m, parentAt t1 m = parentAt t2 m) (hx : ∀ m, xecAt t1 m = xecAt t2 m) :
    ∀ (q i : Nat), sibSum t1 q i = sibSum t2 q i := by
  intro q i
  unfold sibSum
  rw [List.filter_congr (fun m _ => by rw [hp m])]
  congr 1
  exact List.map_congr_left (fun m _ => hx m)

theorem x_center_layer_char (items : List InternalNode) (layer : Nat)
    (Hp : ∀ (i : Nat) (r : InternalNode) (q : Nat), items[i]? = some r → r.y_order = layer →
      r.parent = some q → ∃ rq, items[q]? = some rq ∧ rq.y_order ≠ layer) :
    ∃ out, x_center_layer layer items = Except.ok out ∧
      out.length = items.length ∧
      (∀ (i : Nat) (r : InternalNode), items[i]? = some r → r.y_order ≠ layer → out[i]? = some r) ∧
      (∀ (i : Nat) (r : InternalNode), items[i]? = some r → r.y_order = layer →
        out[i]? = some { r with x_center := startVal items r.parent
          + ((preSum items ((layerGroup items layer r.parent).filter (fun m => decide (m < i))) : Nat) : Int)
          + ((r.x_extent_children / 2 : Nat) : Int) }) := by
  have hex : ∀ m ∈ nodeIdsInLayer items layer, ∃ r : InternalNode, items[m]? = some r := by
    intro m hm
    obtain ⟨r, hr, -⟩ := (nodeIdsInLayer_mem items layer m).mp hm
    exact ⟨r, hr⟩
  have hpl : parentsInLayer items (nodeIdsInLayer items layer)
      = Except.ok ((nodeIdsInLayer items layer).map (parentAt items)) :=
    parentsInLayer_ok items _ hex
  have hps : ∀ p ∈ (nodeIdsInLayer items layer).map (parentAt items),
      p = none ∨ ∃ (q : Nat) (rq : InternalNode),
        p = some q ∧ items[q]? = some rq ∧ rq.y_order ≠ layer := by
    intro p hp
    obtain ⟨m, hm, hpm⟩ := List.mem_map.mp hp
    obtain ⟨rm, hrm, hym⟩ := (nodeIdsInLayer_mem items layer m).mp hm
    have hpm2 : rm.parent = p := by
      unfold parentAt at hpm
      rw [hrm] at hpm
      exact hpm
    cases hcase : rm.parent with
    | none =>
      left
      rw [hcase] at hpm2
      exact hpm2.symm
    | some q =>
      right
      obtain ⟨rq, hrq, hyq⟩ := Hp m rm q hrm hym hcase
      exact ⟨q, rq, by rw [← hpm2, hcase], hrq, hyq⟩
  obtain ⟨out, h1, h2, h3, h4⟩ := placeParents_inv items layer
    ((nodeIdsInLayer items layer).map (parentAt items)) [] items hps rfl
    (fun i r hi _ => hi)
    (fun i r hi hy => ⟨fun hmem => absurd hmem (List.not_mem_nil _), fun _ => hi⟩)
  refine ⟨out, ?_, h2, h3, ?_⟩
  · simp only [x_center_layer, hpl]
    exact h1
  · intro i r hi hy
    rcases h4 i r hi hy with ⟨hin, -⟩
    apply hin
    simp only [List.nil_append]
    refine List.mem_map.mpr ⟨i, (nodeIdsInLayer_mem items layer i).mpr ⟨r, hi, hy⟩, ?_⟩
    unfold parentAt
    rw [hi]
    rfl

theorem applyLayers_inv (items2 : List InternalNode)
    (W1 : ∀ (i : Nat) (r : InternalNode) (q : Nat), items2[i]? = some r → r.parent = some q →
      ∃ rq, items2[q]? = some rq ∧ rq.y_order + 1 = r.y_order)
    (W0 : ∀ (i : Nat) (r : InternalNode), items2[i]? = some r → r.parent = none → i = 0) :
    ∀ (n k : Nat) (cur : List InternalNode),
    cur.length = items2.length →
    (∀ (i : Nat) (r : InternalNode), items2[i]? = some r → k ≤ r.y_order → cur[i]? = some r) →
    (∀ (i : Nat) (r : InternalNode), items2[i]? = some r →
      ∃ x : Int, cur[i]? = some { r with x_center := x }) →
    (∀ (i : Nat) (r : InternalNode), cur[i]? = some r → r.y_order < k →
      (r.parent = none → r.x_center = ((r.x_extent_children / 2 : Nat) : Int)) ∧
      (∀ q : Nat, r.parent = some q → ∃ rq, cur[q]? = some rq ∧
        r.x_center = rq.x_center - ((rq.x_extent_of_children / 2 : Nat) : Int)
          + ((sibSum cur q i : Nat) : Int) + ((r.x_extent_children / 2 : Nat) : Int))) →
    ∃ out, applyLayers (List.range' k n) cur = Except.ok out ∧
      out.length = items2.length ∧
      (∀ (i : Nat) (r : InternalNode), items2[i]? = some r → k + n ≤ r.y_order → out[i]? = some r) ∧
      (∀ (i : Nat) (r : InternalNode), items2[i]? = some r →
        ∃ x : Int, out[i]? = some { r with x_center := x }) ∧
      (∀ (i : Nat) (r : InternalNode), out[i]? = some r → r.y_order < k + n →
        (r.parent = none → r.x_center = ((r.x_extent_children / 2 : Nat) : Int)) ∧
        (∀ q : Nat, r.parent = some q → ∃ rq, out[q]? = some rq ∧
          r.x_center = rq.x_center - ((rq.x_extent_of_children / 2 : Nat) : Int)
            + ((sibSum out q i : Nat) : Int) + ((r.x_extent_children / 2 : Nat) : Int))) := by
  intro n
  induction n with
  | zero =>
    intro k cur hc1 hc2 hc2b hc3
    exact ⟨cur, rfl, hc1, fun i r hi hy => hc2 i r hi (by omega), hc2b,
      fun i r hi hy => hc3 i r hi (by omega)⟩
  | succ n ih =>
    intro k cur hc1 hc2 hc2b hc3
    have Hp : ∀ (i : Nat) (r : InternalNode) (q : Nat), cur[i]? = some r → r.y_order = k →
        r.parent = some q → ∃ rq, cur[q]? = some rq ∧ rq.y_order ≠ k := by
      intro i r q hi hy hpq
      obtain ⟨r2, hr2, hrr⟩ := sl_table_inv items2 cur hc1 hc2b i r hi
      have hp2 : r2.parent = some q := by
        rw [hrr] at hpq
        exact hpq
      have hy2 : r2.y_order = k := by
        rw [hrr] at hy
        exact hy
      obtain ⟨rq2, hrq2, hyq2⟩ := W1 i r2 q hr2 hp2
      obtain ⟨x, hx⟩ := hc2b q rq2 hrq2
      refine ⟨{ rq2 with x_center := x }, hx, ?_⟩
      dsimp only
      omega
    obtain ⟨out1, hxcl, hlen1, hunch, hassign⟩ := x_center_layer_char cur k Hp
    have hc1' : out1.length = items2.length := hlen1.trans hc1
    have hc2'' : ∀ (i : Nat) (r : InternalNode), items2[i]? = some r → k + 1 ≤ r.y_order →
        out1[i]? = some r := by
      intro i r hi hy
      have hcuri : cur[i]? = some r := hc2 i r hi (by omega)
      exact hunch i r hcuri (by omega)
    have hc2b' : ∀ (i : Nat) (r : InternalNode), items2[i]? = some r →
        ∃ x : Int, out1[i]? = some { r with x_center := x } := by
      intro i r hi
      obtain ⟨x, hx⟩ := hc2b i r hi
      by_cases hy : r.y_order = k
      · have := hassign i { r with x_center := x } hx (by dsimp only; exact hy)
        rw [sl_with_with] at this
        exact ⟨_, this⟩
      · exact ⟨x, hunch i { r with x_center := x } hx (by dsimp only; exact hy)⟩
    have hAcur := sl_fields_agree items2 cur hc1 hc2b
    have hAout := sl_fields_agree items2 out1 hc1' hc2b'
    have hsibc : ∀ (q i : Nat), sibSum out1 q i = sibSum cur q i :=
      sl_sibSum_congr out1 cur
        (fun m => ((hAout m).1).trans ((hAcur m).1).symm)
        (fun m => ((hAout m).2.1).trans ((hAcur m).2.1).symm)
    have hc3' : ∀ (i : Nat) (r1 : InternalNode), out1[i]? = some r1 → r1.y_order < k + 1 →
        (r1.parent = none → r1.x_center = ((r1.x_extent_children / 2 : Nat) : Int)) ∧
        (∀ q : Nat, r1.parent = some q → ∃ rq, out1[q]? = some rq ∧
          r1.x_center = rq.x_center - ((rq.x_extent_of_children / 2 : Nat) : Int)
            + ((sibSum out1 q i : Nat) : Int) + ((r1.x_extent_children / 2 : Nat) : Int)) := by
      intro i r1 hi1 hy1
      obtain ⟨r2, hr2, hrr1⟩ := sl_table_inv items2 out1 hc1' hc2b' i r1 hi1
      have hilen : i < cur.length := by
        have := sl_get_lt items2 i r2 hr2
        omega
      have hrc : cur[i]? = some cur[i] := List.getElem?_eq_getElem hilen
      obtain ⟨r2', hr2', hrrc⟩ := sl_table_inv items2 cur hc1 hc2b i cur[i] hrc
      have hr22 : r2 = r2' := by
        rw [hr2] at hr2'
        exact Option.some.inj hr2'
      subst hr22
      have hyrc : (cur[i]).y_order = r2.y_order := by
        rw [hrrc]
      have hy1r2 : r1.y_order = r2.y_order := by
        rw [hrr1]
      by_cases hyk : r2.y_order = k
      · have hass := hassign i cur[i] hrc (by rw [hyrc]; exact hyk)
        have hr1eq : r1 = { cur[i] with x_center := startVal cur (cur[i]).parent
            + ((preSum cur ((layerGroup cur k (cur[i]).parent).filter (fun m => decide (m < i))) : Nat) : Int)
            + (((cur[i]).x_extent_children / 2 : Nat) : Int) } := by
          rw [hi1] at hass
          exact Option.some.inj hass
        constructor
        · intro hpn
          have hpc : (cur[i]).parent = none := by
            rw [hr1eq] at hpn
            exact hpn
          have hp2 : r2.parent = none := by
            rw [hrrc] at hpc
            exact hpc
          have hi0 : i = 0 := W0 i r2 hr2 hp2
          subst hi0
          have hfilt : (layerGroup cur k none).filter (fun m => decide (m < 0)) = [] := by
            apply List.filter_eq_nil_iff.mpr
            intro m hm
            simp
          rw [hr1eq]
          dsimp only
          rw [hpc, hfilt]
          unfold startVal preSum
          simp
        · intro q hpq
          have hpc : (cur[i]).parent = some q := by
            rw [hr1eq] at hpq
            exact hpq
          have hp2 : r2.parent = some q := by
            rw [hrrc] at hpc
            exact hpc
          obtain ⟨rq2, hrq2, hyq2⟩ := W1 i r2 q hr2 hp2
          obtain ⟨xq, hxq⟩ := hc2b q rq2 hrq2
          have hyqne : ({ rq2 with x_center := xq } : InternalNode).y_order ≠ k := by
            dsimp only
            omega
          have hq1 : out1[q]? = some { rq2 with x_center := xq } :=
            hunch q { rq2 with x_center := xq } hxq hyqne
          refine ⟨{ rq2 with x_center := xq }, hq1, ?_⟩
          have hsvq : startVal cur (some q) = xq - ((rq2.x_extent_of_children / 2 : Nat) : Int) := by
            simp [startVal, xcAt, xeocAt, hxq]
          have hlists : (layerGroup cur k (some q)).filter (fun m => decide (m < i))
              = (List.range i).filter (fun m => decide (parentAt cur m = some q)) := by
            apply sl_sorted_ext
            · exact ((nodeIdsInLayer_pairwise cur k).sublist
                (nlpp_sublist cur (nodeIdsInLayer cur k) (some q))).sublist
                (List.filter_sublist _)
            · exact ((List.pairwise_lt_range i).sublist (List.filter_sublist _))
            · intro m
              rw [List.mem_filter, List.mem_filter]
              constructor
              · rintro ⟨hmg, hml⟩
                obtain ⟨-, rm, hrm, hpm⟩ :=
                  (nlpp_mem cur (nodeIdsInLayer cur k) (some q) m).mp hmg
                refine ⟨List.mem_range.mpr (by simpa using hml), ?_⟩
                unfold parentAt
                rw [hrm]
                simpa using hpm
              · rintro ⟨hmr, hmp⟩
                have hmp2 : parentAt cur m = some q := by simpa using hmp
                obtain ⟨rm, hrm, hpm⟩ : ∃ rm, cur[m]? = some rm ∧ rm.parent = some q := by
                  unfold parentAt at hmp2
                  cases hcm : cur[m]? with
                  | none =>
                    rw [hcm] at hmp2
                    exact Option.noConfusion hmp2
                  | some rm =>
                    rw [hcm] at hmp2
                    exact ⟨rm, rfl, hmp2⟩
                obtain ⟨rm2, hrm2, hrrm⟩ := sl_table_inv items2 cur hc1 hc2b m rm hrm
                have hpm2 : rm2.parent = some q := by
                  rw [hrrm] at hpm
                  exact hpm
                obtain ⟨rq2', hrq2', hyq2'⟩ := W1 m rm2 q hrm2 hpm2
                have hqq : rq2 = rq2' := by
                  rw [hrq2] at hrq2'
                  exact Option.some.inj hrq2'
                subst hqq
                have hym : rm.y_order = k := by
                  rw [hrrm]
                  dsimp only
                  omega
                refine ⟨?_, by simpa using List.mem_range.mp hmr⟩
                exact (nlpp_mem cur (nodeIdsInLayer cur k) (some q) m).mpr
                  ⟨(nodeIdsInLayer_mem cur k m).mpr ⟨rm, hrm, hym⟩, rm, hrm, hpm⟩
          have hsib : sibSum out1 q i
              = preSum cur ((layerGroup cur k (some q)).filter (fun m => decide (m < i))) := by
            rw [hsibc q i, hlists]
            rfl
          rw [hr1eq]
          dsimp only
          rw [hpc, hsvq, hsib]
      · have hycne : (cur[i]).y_order ≠ k := by
          rw [hyrc]
          exact hyk
        have hout1 : out1[i]? = some cur[i] := hunch i cur[i] hrc hycne
        have hr1c : r1 = cur[i] := by
          rw [hi1] at hout1
          exact Option.some.inj hout1
        have hycy : (cur[i]).y_order = r1.y_order := by
          rw [hr1c]
        have hylt : (cur[i]).y_order < k := by omega
        rcases hc3 i cur[i] hrc hylt with ⟨hnone, hsome⟩
        rw [hr1c]
        constructor
        · exact hnone
        · intro q hpq
          obtain ⟨rqc, hrqc, heq⟩ := hsome q hpq
          obtain ⟨rq2, hrq2, hrrq⟩ := sl_table_inv items2 cur hc1 hc2b q rqc hrqc
          have hp2 : r2.parent = some q := by
            rw [hrrc] at hpq
            exact hpq
          obtain ⟨rq2', hrq2', hyq2'⟩ := W1 i r2 q hr2 hp2
          have hqq : rq2 = rq2' := by
            rw [hrq2] at hrq2'
            exact Option.some.inj hrq2'
          subst hqq
          have hyrqc : rqc.y_order ≠ k := by
            rw [hrrq]
            dsimp only
            omega
          have houtq : out1[q]? = some rqc := hunch q rqc hrqc hyrqc
          refine ⟨rqc, houtq, ?_⟩
          rw [hsibc q i]
          exact heq
    obtain ⟨out, happ, ho1, ho2, ho3, ho4⟩ := ih (k + 1) out1 hc1' hc2'' hc2b' hc3'
    refine ⟨out, ?_, ho1, ?_, ho3, ?_⟩
    · rw [List.range'_succ]
      simp only [applyLayers, hxcl]
      exact happ
    · intro i r hi hy
      exact ho2 i r hi (by omega)
    · intro i r hi hy
      exact ho4 i r hi (by omega)

theorem embedTable_core {α : Type} (f : Forest α) (s : α → String) (em : α → Bool)
    (items : List InternalNode) (h : embedTable f s em = Except.ok items) :
    items.length = (build2F s em f 0 0 none).length ∧
    (∀ (i : Nat) (r : InternalNode), items[i]? = some r →
      ∃ r2, (build2F s em f 0 0 none)[i]? = some r2 ∧ r = { r2 with x_center := r.x_center }) ∧
    (∀ (i : Nat) (r2 : InternalNode), (build2F s em f 0 0 none)[i]? = some r2 →
      ∃ x : Int, items[i]? = some { r2 with x_center := x }) ∧
    (∀ (i : Nat) (r : InternalNode), items[i]? = some r →
      (r.parent = none → r.x_center = ((r.x_extent_children / 2 : Nat) : Int)) ∧
      (∀ q : Nat, r.parent = some q → ∃ rq, items[q]? = some rq ∧
        r.x_center = rq.x_center - ((rq.x_extent_of_children / 2 : Nat) : Int)
          + ((sibSum items q i : Nat) : Int) + ((r.x_extent_children / 2 : Nat) : Int))) := by
  by_cases hroot : 1 < f.rootCount
  · exfalso
    unfold embedTable create_initial_embedding_data at h
    rw [if_pos hroot] at h
    exact Except.noConfusion h
  · unfold embedTable create_initial_embedding_data at h
    rw [if_neg hroot] at h
    dsimp only at h
    rw [pass2_eq s em f] at h
    unfold apply_x_center at h
    rw [List.range_eq_range'] at h
    have W1 : ∀ (i : Nat) (r : InternalNode) (q : Nat),
        (build2F s em f 0 0 none)[i]? = some r → r.parent = some q →
        ∃ rq, (build2F s em f 0 0 none)[q]? = some rq ∧ rq.y_order + 1 = r.y_order := by
      intro i r q hi hp
      exact (table_parent_struct s em f i r q hi hp).2
    have W0 : ∀ (i : Nat) (r : InternalNode),
        (build2F s em f 0 0 none)[i]? = some r → r.parent = none → i = 0 :=
      table_root_only s em f (by omega)
    obtain ⟨out, happ, ho1, ho2, ho3, ho4⟩ :=
      applyLayers_inv (build2F s em f 0 0 none) W1 W0
        (tableHeight (build2F s em f 0 0 none) + 1) 0 (build2F s em f 0 0 none)
        rfl
        (fun i r hi _ => hi)
        (fun i r hi => ⟨r.x_center, by rw [sl_with_self]; exact hi⟩)
        (fun i r hi hy => absurd hy (by omega))
    rw [happ] at h
    have hout : out = items := Except.ok.inj h
    subst hout
    refine ⟨ho1, ?_, ho3, ?_⟩
    · exact sl_table_inv (build2F s em f 0 0 none) out ho1 ho3
    · intro i r hi
      have hy : r.y_order < 0 + (tableHeight (build2F s em f 0 0 none) + 1) := by
        obtain ⟨r2, hr2, hrr⟩ := sl_table_inv (build2F s em f 0 0 none) out ho1 ho3 i r hi
        have hmem : r2 ∈ build2F s em f 0 0 none := List.getElem?_mem hr2
        have hle := sl_height_le (build2F s em f 0 0 none) 0 r2 hmem
        have : r.y_order = r2.y_order := by rw [hrr]
        unfold tableHeight
        omega
      exact ho4 i r hi hy

theorem sl_sibSum_mono (items : List InternalNode) (q i j : Nat) (hij : i < j)
    (hpi : parentAt items i = some q) :
    sibSum items q i + xecAt items i ≤ sibSum items q j := by
  unfold sibSum
  rw [sl_range'_filter_append (fun m => decide (parentAt items m = some q)) i j hij]
  rw [List.map_append, List.sum_append]
  have hji : j - i = (j - i - 1) + 1 := by omega
  rw [hji, List.range'_succ]
  have hdec : decide (parentAt items i = some q) = true := by simp [hpi]
  rw [List.filter_cons, hdec]
  simp only [if_true, List.map_cons, List.sum_cons]
  omega

theorem single_table {α : Type} (s : α → String) (em : α → Bool) (t : RTree α) :
    build2F s em (Forest.cons t Forest.nil) 0 0 none = build2 s em t 0 0 none := by
  simp [build2F]

/-- C2: a tree with more than one top-level child makes `embed` fail with the
structural "multiple roots" error, producing no embedding. -/
theorem c2_multiple_roots {α : Type} (f : Forest α) (s : α → String) (em : α → Bool)
    (h : 1 < f.rootCount) :
    embed f s em = Except.error ("Currently we support only one root") := by
  unfold embed embedTable create_initial_embedding_data
  rw [if_pos h]

theorem c2_witness :
    1 < forest2roots.rootCount ∧
    embed forest2roots id (fun _ => false)
      = Except.error ("Currently we support only one root") :=
  ⟨by decide, c2_multiple_roots forest2roots id (fun _ => false) (by decide)⟩

/-- C10: a tree with zero top-level children passes the single-root check
(which only rejects more than one root) and `embed` succeeds with an empty
embedding. -/
theorem c10_empty_tree {α : Type} (s : α → String) (em : α → Bool) :
    embed (Forest.nil : Forest α) s em = Except.ok [] := rfl

/-- C8: `embed` is deterministic, a pure function of the tree and the two
classifier functions: equal inputs give identical result collections. -/
theorem c8_deterministic {α : Type} (f1 f2 : Forest α) (s1 s2 : α → String)
    (e1 e2 : α → Bool) (h1 : f1 = f2) (h2 : s1 = s2) (h3 : e1 = e2) :
    embed f1 s1 e1 = embed f2 s2 e2 := by
  subst h1
  subst h2
  subst h3
  rfl

theorem c8_witness :
    embed forest6 id (fun _ => false) = embed forest6 id (fun _ => false) :=
  c8_deterministic forest6 forest6 id id (fun _ => false) (fun _ => false) rfl rfl rfl

/-- C6: corrected concrete scenario.  For the root `A` with children `B` and
`CC`, `embed` succeeds with `y_order` 0, 1, 1, `x_extent_children` 2 for `B`,
3 for `CC` and 5 for `A`, and `x_center` 2 for `A`, 1 for `B` and 3 for `CC`
(the group cursor starts at `A.x_center - A.x_extent_of_children / 2
= 2 - 2 = 0`, so `B` is centered at `0 + 2/2 = 1` and `CC` at `2 + 3/2 = 3`). -/
theorem c6_amended_scenario :
    embedTable forest6 id (fun _ => false) = Except.ok items6 ∧
    embed forest6 id (fun _ => false) = Except.ok (transfer_result items6) ∧
    recA.y_order = 0 ∧ recB.y_order = 1 ∧ recCC.y_order = 1 ∧
    recB.x_extent_children = 2 ∧ recCC.x_extent_children = 3 ∧ recA.x_extent_children = 5 ∧
    recA.x_center = 2 ∧ recB.x_center = 1 ∧ recCC.x_center = 3 :=
  ⟨rfl, rfl, rfl, rfl, rfl, rfl, rfl, rfl, rfl, rfl, rfl⟩

theorem c6_counterexample :
    embedTable forest6 id (fun _ => false) = Except.ok items6 ∧
    recB.x_center = 1 ∧ recB.x_center ≠ -1 ∧
    recCC.x_center = 3 ∧ recCC.x_center ≠ 1 :=
  ⟨rfl, rfl, by decide, rfl, by decide⟩

/-- C9: `Layouter::write` fails exactly when no output path was configured;
with a path configured it invokes the configured drawer, or the default SVG
drawer when none was supplied, on that path and the stored embedding. -/
theorem c9_layouter_write {α : Type} (l : Layouter α) (d : DrawerFn) :
    (l.file_name = none →
      Layouter.write d l
        = Except.error ("No output file name given - use Layouter::with_file_path.")) ∧
    (∀ p : String, l.file_name = some p →
      Layouter.write d l = (l.drawer.getD d) p l.embedding) := by
  constructor
  · intro h
    unfold Layouter.write
    rw [if_pos h]
  · intro p hp
    unfold Layouter.write
    rw [hp]
    simp

theorem c9_witness :
    Layouter.write drawer0 (Layouter.new (Forest.nil : Forest Unit))
      = Except.error ("No output file name given - use Layouter::with_file_path.") ∧
    Layouter.write drawer0 ((Layouter.new (Forest.nil : Forest Unit)).with_file_path ("out.svg"))
      = drawer0 ("out.svg") [] :=
  ⟨(c9_layouter_write (Layouter.new (Forest.nil : Forest Unit)) drawer0).1 rfl,
    (c9_layouter_write ((Layouter.new (Forest.nil : Forest Unit)).with_file_path ("out.svg"))
      drawer0).2 ("out.svg") rfl⟩

/-- C3: in every successful embedding, every record satisfies
`x_extent ≤ x_extent_children`, and every record with at least one child
satisfies `x_extent_children = max x_extent x_extent_of_children`, hence
`x_extent_of_children ≤ x_extent_children`. -/
theorem c3_width_invariants {α : Type} (f : Forest α) (s : α → String) (em : α → Bool)
    (items : List InternalNode) (h : embedTable f s em = Except.ok items) :
    ∀ (i : Nat) (r : InternalNode), items[i]? = some r →
      r.x_extent ≤ r.x_extent_children ∧
      ((∃ (j : Nat) (rj : InternalNode), items[j]? = some rj ∧ rj.parent = some i) →
        r.x_extent_children = max r.x_extent r.x_extent_of_children ∧
        r.x_extent_of_children ≤ r.x_extent_children) := by
  intro i r hi
  obtain ⟨-, hinv, -, -⟩ := embedTable_core f s em items h
  obtain ⟨r2, hr2, hrr⟩ := hinv i r hi
  have hmem : r2 ∈ build2F s em f 0 0 none := List.getElem?_mem hr2
  obtain ⟨hmax, -⟩ := build2F_widths s em f 0 0 none r2 hmem
  have hxe : r.x_extent = r2.x_extent := by rw [hrr]
  have hxec : r.x_extent_children = r2.x_extent_children := by rw [hrr]
  have hxeoc : r.x_extent_of_children = r2.x_extent_of_children := by rw [hrr]
  constructor
  · rw [hxe, hxec, hmax]
    exact Nat.le_max_left _ _
  · intro hchild
    refine ⟨by rw [hxe, hxec, hxeoc, hmax], ?_⟩
    rw [hxec, hxeoc, hmax]
    exact Nat.le_max_right _ _

theorem c3_witness :
    recCC.x_extent ≤ recCC.x_extent_children ∧
    ((∃ (j : Nat) (rj : InternalNode), items6[j]? = some rj ∧ rj.parent = some 0) →
      recA.x_extent_children = max recA.x_extent recA.x_extent_of_children ∧
      recA.x_extent_of_children ≤ recA.x_extent_children) :=
  ⟨(c3_width_invariants forest6 id (fun _ => false) items6 rfl 2 recCC rfl).1,
    (c3_width_invariants forest6 id (fun _ => false) items6 rfl 0 recA rfl).2⟩

/-- C4: in every successful single-root embedding, the root record (position 0)
has `y_order = 0` and no parent; every record with a parent reference has
`y_order` equal to its parent's `y_order + 1`; and only the root lacks a
parent. -/
theorem c4_y_order {α : Type} (t : RTree α) (s : α → String) (em : α → Bool)
    (items : List InternalNode)
    (h : embedTable (Forest.cons t Forest.nil) s em = Except.ok items) :
    (∀ r : InternalNode, items[0]? = some r → r.y_order = 0 ∧ r.parent = none) ∧
    (∀ (i : Nat) (r : InternalNode) (q : Nat) (rq : InternalNode),
      items[i]? = some r → r.parent = some q → items[q]? = some rq →
      r.y_order = rq.y_order + 1) ∧
    (∀ (i : Nat) (r : InternalNode), items[i]? = some r → r.parent = none → i = 0) := by
  obtain ⟨-, hinv, -, -⟩ := embedTable_core (Forest.cons t Forest.nil) s em items h
  refine ⟨?_, ?_, ?_⟩
  · intro r hr
    obtain ⟨r2, hr2, hrr⟩ := hinv 0 r hr
    rw [single_table] at hr2
    obtain ⟨rh, hrh, -, -, -, hparh, hyh, -, -, -, -⟩ := build2_get_zero s em t 0 0 none
    rw [hrh] at hr2
    have : rh = r2 := Option.some.inj hr2
    subst this
    constructor
    · rw [hrr]
      exact hyh
    · rw [hrr]
      exact hparh
  · intro i r q rq hi hp hq
    obtain ⟨r2, hr2, hrr⟩ := hinv i r hi
    obtain ⟨rq2, hrq2, hrrq⟩ := hinv q rq hq
    have hp2 : r2.parent = some q := by
      rw [hrr] at hp
      exact hp
    obtain ⟨-, rq2', hrq2', hy⟩ := table_parent_struct s em (Forest.cons t Forest.nil) i r2 q hr2 hp2
    have : rq2 = rq2' := by
      rw [hrq2] at hrq2'
      exact Option.some.inj hrq2'
    subst this
    have h1 : r.y_order = r2.y_order := by rw [hrr]
    have h2 : rq.y_order = rq2.y_order := by rw [hrrq]
    omega
  · intro i r hi hp
    obtain ⟨r2, hr2, hrr⟩ := hinv i r hi
    have hp2 : r2.parent = none := by
      rw [hrr] at hp
      exact hp
    exact table_root_only s em (Forest.cons t Forest.nil) (by simp [Forest.rootCount]) i r2 hr2 hp2

theorem c4_witness :
    (recA.y_order = 0 ∧ recA.parent = none) ∧ recB.y_order = recA.y_order + 1 :=
  ⟨(c4_y_order tree6 id (fun _ => false) items6 rfl).1 recA rfl,
    (c4_y_order tree6 id (fun _ => false) items6 rfl).2.1 1 recB 0 recA rfl rfl rfl⟩

/-- C7: after pass 2, every record's `x_extent_of_children` equals the sum of
`x_extent_children` over the records whose parent reference points at it (its
direct children); in particular it is `0` for every leaf. -/
theorem c7_x_extent_of_children {α : Type} (f : Forest α) (s : α → String) (em : α → Bool)
    (items0 : List InternalNode) (h : create_initial_embedding_data f s em = Except.ok items0) :
    ∀ (i : Nat) (r : InternalNode), (apply_children_x_extents f items0)[i]? = some r →
      r.x_extent_of_children = groupSum (apply_children_x_extents f items0) i ∧
      ((∀ (j : Nat) (rj : InternalNode), (apply_children_x_extents f items0)[j]? = some rj →
          rj.parent ≠ some i) →
        r.x_extent_of_children = 0) := by
  have hitems0 : items0 = build1F s em f 0 0 none := by
    unfold create_initial_embedding_data at h
    by_cases hroot : 1 < f.rootCount
    · rw [if_pos hroot] at h
      exact Except.noConfusion h
    · rw [if_neg hroot] at h
      exact (Except.ok.inj h).symm
  subst hitems0
  rw [pass2_eq s em f]
  intro i r hi
  have hgs := build2F_groupSum s em f 0 0 none i
  have hlen : i < (build2F s em f 0 0 none).length := sl_get_lt _ i r hi
  have hrange : 0 ≤ i ∧ i < 0 + f.size := by
    rw [build2F_length] at hlen
    omega
  rw [if_neg (by simp), if_pos hrange] at hgs
  have hxeoc : xeocAt (build2F s em f 0 0 none) (i - 0) = r.x_extent_of_children := by
    unfold xeocAt
    have : i - 0 = i := by omega
    rw [this, hi]
    rfl
  rw [hxeoc] at hgs
  constructor
  · omega
  · intro hleaf
    have hz : groupSum (build2F s em f 0 0 none) i = 0 := by
      unfold groupSum
      have hfil : (build2F s em f 0 0 none).filter (fun r => decide (r.parent = some i)) = [] := by
        apply List.filter_eq_nil_iff.mpr
        intro rj hrj
        obtain ⟨j, hj⟩ := (sl_mem_iff_get _ rj).mp hrj
        simp [hleaf j rj hj]
      rw [hfil]
      rfl
    omega

theorem c7_witness :
    recA.x_extent_of_children
        = groupSum (apply_children_x_extents forest6 (build1F id (fun _ => false) forest6 0 0 none)) 0 ∧
      ((∀ (j : Nat) (rj : InternalNode),
          (apply_children_x_extents forest6 (build1F id (fun _ => false) forest6 0 0 none))[j]? = some rj →
          rj.parent ≠ some 1) →
        recB.x_extent_of_children = 0) :=
  ⟨(c7_x_extent_of_children forest6 id (fun _ => false)
      (build1F id (fun _ => false) forest6 0 0 none) rfl 0 { recA with x_center := 0 } (by rfl)).1,
    (c7_x_extent_of_children forest6 id (fun _ => false)
      (build1F id (fun _ => false) forest6 0 0 none) rfl 1 { recB with x_center := 0 } (by rfl)).2⟩

/-- C1: in every successful single-root embedding, pass 3 centers the nodes
layer by layer: the root (layer 0, no parent) gets
`x_center = 0 + x_extent_children / 2` from the cursor starting at 0, and each
record with parent `q` gets `x_center = (q.x_center - q.x_extent_of_children/2)
+ (total x_extent_children of earlier siblings) + own x_extent_children / 2`
(truncating division), the closed form of the per-group moving cursor that
starts at `parent.x_center - parent.x_extent_of_children / 2` and advances by
each child's `x_extent_children` in source sibling order. -/
theorem c1_pass3_centering {α : Type} (t : RTree α) (s : α → String) (em : α → Bool)
    (items : List InternalNode)
    (h : embedTable (Forest.cons t Forest.nil) s em = Except.ok items) :
    (∀ r : InternalNode, items[0]? = some r → r.parent = none ∧
      r.x_center = ((r.x_extent_children / 2 : Nat) : Int)) ∧
    (∀ (i : Nat) (r : InternalNode) (q : Nat) (rq : InternalNode),
      items[i]? = some r → r.parent = some q → items[q]? = some rq →
      r.x_center = rq.x_center - ((rq.x_extent_of_children / 2 : Nat) : Int)
        + ((sibSum items q i : Nat) : Int) + ((r.x_extent_children / 2 : Nat) : Int)) := by
  obtain ⟨-, hinv, -, hrel⟩ := embedTable_core (Forest.cons t Forest.nil) s em items h
  constructor
  · intro r hr
    obtain ⟨r2, hr2, hrr⟩ := hinv 0 r hr
    rw [single_table] at hr2
    obtain ⟨rh, hrh, -, -, -, hparh, -, -, -, -, -⟩ := build2_get_zero s em t 0 0 none
    rw [hrh] at hr2
    have hr2h : rh = r2 := Option.some.inj hr2
    subst hr2h
    have hpar : r.parent = none := by
      rw [hrr]
      exact hparh
    exact ⟨hpar, (hrel 0 r hr).1 hpar⟩
  · intro i r q rq hi hp hq
    obtain ⟨rq', hq', heq⟩ := (hrel i r hi).2 q hp
    have : rq' = rq := by
      rw [hq] at hq'
      exact (Option.some.inj hq').symm
    subst this
    exact heq

theorem c1_witness :
    (recA.parent = none ∧ recA.x_center = ((recA.x_extent_children / 2 : Nat) : Int)) ∧
    recCC.x_center = recA.x_center - ((recA.x_extent_of_children / 2 : Nat) : Int)
      + ((sibSum items6 0 2 : Nat) : Int) + ((recCC.x_extent_children / 2 : Nat) : Int) :=
  ⟨(c1_pass3_centering tree6 id (fun _ => false) items6 rfl).1 recA rfl,
    (c1_pass3_centering tree6 id (fun _ => false) items6 rfl).2 2 recCC 0 recA rfl rfl rfl⟩

/-- C5: in every successful embedding, the allotted spans of two siblings in
source order never overlap: if `A` comes before `B` under the same parent then
`x_center A + x_extent_children A / 2 ≤ x_center B - x_extent_children B / 2`
(truncating division; sibling source order is table `ord` order). -/
theorem c5_no_sibling_overlap {α : Type} (f : Forest α) (s : α → String) (em : α → Bool)
    (items : List InternalNode) (h : embedTable f s em = Except.ok items) :
    ∀ (i j q : Nat) (ri rj : InternalNode), items[i]? = some ri → items[j]? = some rj →
      ri.parent = some q → rj.parent = some q → i < j →
      ri.x_center + ((ri.x_extent_children / 2 : Nat) : Int)
        ≤ rj.x_center - ((rj.x_extent_children / 2 : Nat) : Int) := by
  intro i j q ri rj hi hj hpi hpj hij
  obtain ⟨-, -, -, hrel⟩ := embedTable_core f s em items h
  obtain ⟨rq, hq, heqi⟩ := (hrel i ri hi).2 q hpi
  obtain ⟨rq', hq', heqj⟩ := (hrel j rj hj).2 q hpj
  have hrqq : rq = rq' := by
    rw [hq] at hq'
    exact Option.some.inj hq'
  subst hrqq
  have hpAt : parentAt items i = some q := by
    unfold parentAt
    rw [hi]
    simpa using hpi
  have hxAt : xecAt items i = ri.x_extent_children := by
    unfold xecAt
    rw [hi]
    rfl
  have hmono := sl_sibSum_mono items q i j hij hpAt
  rw [hxAt] at hmono
  have hhalf : ri.x_extent_children / 2 + ri.x_extent_children / 2 ≤ ri.x_extent_children := by
    omega
  rw [heqi, heqj]
  push_cast
  omega

theorem c5_witness :
    recB.x_center + ((recB.x_extent_children / 2 : Nat) : Int)
      ≤ recCC.x_center - ((recCC.x_extent_children / 2 : Nat) : Int) :=
  c5_no_sibling_overlap forest6 id (fun _ => false) items6 rfl 1 2 0 recB recCC
    rfl rfl rfl rfl (by decide)
